import Mathlib

/-!
Verification of the bencode decoder/encoder in `bendecode.py` (repository
`uglygus/bendecode`).  The Python source is shallowly embedded: byte strings
become `List Nat` (each entry a byte value), the dynamically-typed decoded
values become the inductive type `Value`, Python exceptions become the
`PyErr` error type threaded through `Except`, and the lazy token generator
becomes an eagerly computed token list together with the terminal error the
generator would raise (the generator's output does not depend on its
consumer, so this is observationally equivalent to pull-based laziness).

Recursive functions that Python writes with unbounded recursion are given an
explicit fuel argument so that every definition is structurally recursive and
therefore kernel-reducible; a fuel-irrelevance lemma shows the chosen fuel is
large enough, so the observable behaviour matches the source.
-/

/-- Bytes of an ASCII string literal, used to write concrete test buffers. -/
def bstr (s : String) : List Nat := s.data.map Char.toNat

/-- A byte is an ASCII decimal digit. -/
def isDigitByte (c : Nat) : Bool := 48 ≤ c && c ≤ 57

/-- Model of Python `bytes.isdigit`: non-empty and all ASCII digits. -/
def bytesIsDigit (l : List Nat) : Bool := !l.isEmpty && l.all isDigitByte

/-- Positional value of a run of ASCII digit bytes (what `int()` returns on a
digit-only byte string, used for string length prefixes after the
`isdigit` guard in `tokenize`). -/
def digitsVal (l : List Nat) : Nat := l.foldl (fun a d => a * 10 + (d - 48)) 0

/-- Decimal digits of a natural number, most significant first; explicit fuel
keeps the recursion structural (`n / 10` is not a structural subterm). -/
def natDigitsF : Nat → Nat → List Nat
  | 0, _ => []
  | f + 1, n => if n < 10 then [48 + n] else natDigitsF f (n / 10) ++ [48 + n % 10]

/-- Decimal digit bytes of `n`, as produced by Python `b"%d" % n` for `n ≥ 0`. -/
def natDigits (n : Nat) : List Nat := natDigitsF (n + 1) n

/-- Decimal byte representation of an integer, as produced by `b"i%de" % n`
between the `i` and the `e`: a `-` sign for negatives, then digits. -/
def intDec (n : Int) : List Nat :=
  if n < 0 then 45 :: natDigits (-n).toNat else natDigits n.toNat

/-- Model of Python `str.encode()` / UTF-8 encoding of one code point. -/
def utf8Char (c : Nat) : List Nat :=
  if c < 128 then [c]
  else if c < 2048 then [192 + c / 64, 128 + c % 64]
  else if c < 65536 then [224 + c / 4096, 128 + (c / 64) % 64, 128 + c % 64]
  else [240 + c / 262144, 128 + (c / 4096) % 64, 128 + (c / 64) % 64, 128 + c % 64]

/-- Model of Python `str.encode()`: UTF-8 bytes of a text string. -/
def utf8Bytes (s : String) : List Nat := (s.data.map (fun c => utf8Char c.toNat)).flatten

/-- The dynamically-typed Python values flowing through `bendecode.py`:
integers, byte strings, text strings, lists and dictionaries.  A dictionary
is its insertion-ordered association list, exactly the observable content of
a Python `dict`. -/
inductive Value where
  | int : Int → Value
  | str : List Nat → Value
  | text : String → Value
  | list : List Value → Value
  | dict : List (Value × Value) → Value
deriving Inhabited

mutual

/-- Executable structural size of a `Value`; it drives the fuel arguments of
the size-fueled functions below. -/
def vsize : Value → Nat
  | .int _ => 1
  | .str _ => 1
  | .text _ => 1
  | .list l => 1 + vsizeList l
  | .dict l => 1 + vsizePairs l

/-- Sum of sizes of a list of values. -/
def vsizeList : List Value → Nat
  | [] => 0
  | v :: vs => vsize v + vsizeList vs

/-- Sum of sizes of a list of key/value pairs. -/
def vsizePairs : List (Value × Value) → Nat
  | [] => 0
  | p :: ps => 1 + vsize p.1 + vsize p.2 + vsizePairs ps

end

/-- Python `==` on the values the decoder can place in hashable positions
(ints, byte strings, text): structural comparison.  Fueled on the size of the
first argument so the definition is structural and kernel-reducible.  (It is
only ever applied to dictionary keys, which Python requires to be hashable,
so the structural `list`/`dict` cases are never observable.) -/
def beqF : Nat → Value → Value → Bool
  | 0, _, _ => false
  | _ + 1, .int a, .int b => a == b
  | _ + 1, .str a, .str b => a == b
  | _ + 1, .text a, .text b => a == b
  | f + 1, .list a, .list b =>
      a.length == b.length && (a.zip b).all (fun p => beqF f p.1 p.2)
  | f + 1, .dict a, .dict b =>
      a.length == b.length &&
        (a.zip b).all (fun p => beqF f p.1.1 p.2.1 && beqF f p.1.2 p.2.2)
  | _ + 1, _, _ => false

/-- Python `==` between two values (see `beqF`). -/
def vbeq (a b : Value) : Bool := beqF (vsize a + 1) a b

/-- Rank of a value's runtime kind, used to totalize the key order below. -/
def kindRank : Value → Nat
  | .int _ => 0
  | .str _ => 1
  | .text _ => 2
  | .list _ => 3
  | .dict _ => 4

/-- Byte-wise lexicographic order on byte strings: Python `bytes` `<=`. -/
def bytesLe : List Nat → List Nat → Bool
  | [], _ => true
  | _ :: _, [] => false
  | a :: as, b :: bs => if a < b then true else if a = b then bytesLe as bs else false

/-- Comparison of two values of the same runtime kind, as Python `sorted`
compares them: numeric order on ints, raw byte order on byte strings,
code-point order on text (UTF-8 byte order coincides with it).  Python
raises `TypeError` when comparing lists/dicts that reach the fallthrough;
those cases are unreachable for the dictionaries the program builds
(hashable keys), so the catch-all `true` is a don't-care totalization. -/
def sameKindLe : Value → Value → Bool
  | .int a, .int b => decide (a ≤ b)
  | .str a, .str b => bytesLe a b
  | .text a, .text b => bytesLe (utf8Bytes a) (utf8Bytes b)
  | _, _ => true

/-- Total order on candidate dictionary keys.  On byte-string keys (the only
kind a valid bencode dictionary has) it is exactly raw-byte ascending order,
which is how `sorted(obj.items())` in `encode` orders entries of a real
Python dict (keys are unique, so the tuple comparison never reaches the
values). -/
def keyLeB (a b : Value) : Bool :=
  if kindRank a < kindRank b then true
  else if kindRank b < kindRank a then false
  else sameKindLe a b

/-- Order on dictionary entries: by key (see `keyLeB`). -/
def pairLe (p q : Value × Value) : Prop := keyLeB p.1 q.1 = true

instance : DecidableRel pairLe :=
  fun p q => inferInstanceAs (Decidable (keyLeB p.1 q.1 = true))

/-- `encode` from `bendecode.py`, with explicit structural fuel.  Cases in
source order: int → `i…e`, bytes → `len:payload`, str → encoded as its UTF-8
bytes (`encode(obj.encode())`), list → `l…e`, dict → `d…e` with entries
sorted (`sorted(obj.items())`). -/
def encodeF : Nat → Value → List Nat
  | 0, _ => []
  | _ + 1, .int n => 105 :: (intDec n ++ [101])
  | _ + 1, .str b => natDigits b.length ++ 58 :: b
  | _ + 1, .text s => natDigits (utf8Bytes s).length ++ 58 :: utf8Bytes s
  | f + 1, .list l => 108 :: ((l.map (encodeF f)).flatten ++ [101])
  | f + 1, .dict l =>
      100 :: (((List.insertionSort pairLe l).map
        (fun p => encodeF f p.1 ++ encodeF f p.2)).flatten ++ [101])

/-- `encode` from `bendecode.py` (fuel instantiated; see `encodeF`). -/
def encode (v : Value) : List Nat := encodeF (vsize v + 1) v

/-- The Python exceptions the program can raise, plus the `outOfFuel` artifact
of the fueled embedding (unreachable at the fuel `decode` supplies). -/
inductive PyErr where
  | syntaxError : String → PyErr
  | valueError : String → PyErr
  | typeError : String → PyErr
  | stopIteration : PyErr
  | invalidFile : String → PyErr
  | outOfFuel : PyErr
deriving DecidableEq, Repr

/-- The error is a Python `SyntaxError`. -/
def PyErr.isSyntax : PyErr → Bool
  | .syntaxError _ => true
  | _ => false

/-- The error is one of the kinds raised while scanning/parsing the byte
stream (`SyntaxError`, `ValueError`, or the generator's `StopIteration`), as
opposed to the `InvalidFileException` of the info-hash step. -/
def PyErr.isParseKind : PyErr → Bool
  | .syntaxError _ => true
  | .valueError _ => true
  | .stopIteration => true
  | _ => false

/-- ASCII whitespace stripped by Python `int()`. -/
def pyWs (c : Nat) : Bool := c == 9 || c == 10 || c == 11 || c == 12 || c == 13 || c == 32

/-- Strip leading and trailing ASCII whitespace, as Python `int()` does. -/
def pyStrip (l : List Nat) : List Nat :=
  ((l.dropWhile pyWs).reverse.dropWhile pyWs).reverse

/-- Digit run of a Python integer literal after its first digit: decimal
digits with single underscores allowed between digits (an underscore must be
followed by a digit and may not end the run). -/
def pyDigitsGo : Nat → List Nat → Option Nat
  | acc, [] => some acc
  | acc, c :: rest =>
    if c = 95 then
      match rest with
      | [] => none
      | d :: rest2 => if isDigitByte d then pyDigitsGo (acc * 10 + (d - 48)) rest2 else none
    else if isDigitByte c then pyDigitsGo (acc * 10 + (c - 48)) rest else none

/-- Digit run of a Python integer literal: must start with a digit. -/
def pyDigits : List Nat → Option Nat
  | [] => none
  | d :: rest => if isDigitByte d then pyDigitsGo (d - 48) rest else none

/-- Model of the Python builtin `int()` applied to a byte string (as
`decode_item` does on an integer token): optional surrounding ASCII
whitespace, an optional single `+`/`-` sign, then a digit run with optional
single underscores between digits; anything else raises `ValueError`. -/
def pyIntParse (l : List Nat) : Option Int :=
  match pyStrip l with
  | 43 :: rest => (pyDigits rest).map (fun n => (n : Int))
  | 45 :: rest => (pyDigits rest).map (fun n => -(n : Int))
  | rest => (pyDigits rest).map (fun n => (n : Int))

/-- A token produced by `tokenize`: a byte string (markers are the one-byte
strings `i`, `e`, `l`, `d`, `s`; the others are integer digit runs and
string payloads), exactly as the Python generator yields them. -/
abbrev Token := List Nat

/-- Model of `data.index(byte, i)` followed by slicing: split at the first
occurrence of `c`, returning the bytes before and after it; `none` when
absent (where Python `.index` raises `ValueError`). -/
def splitAtByte (c : Nat) : List Nat → Option (List Nat × List Nat)
  | [] => none
  | b :: rest =>
    if b = c then some ([], rest)
    else
      match splitAtByte c rest with
      | none => none
      | some (pre, post) => some (b :: pre, post)

/-- `tokenize` from `bendecode.py`, over the suffix of the buffer starting at
the scan position (the source's absolute index `i` only ever enters through
`data[i…]`, so the suffix determines the behaviour).  Returns the tokens the
generator yields and, if scanning fails, the exception it raises after the
last yielded token.  Fuel is structural; one byte is consumed per step, so
`length + 1` fuel never runs out. -/
def tokF : Nat → List Nat → List Token × Option PyErr
  | 0, _ => ([], some .outOfFuel)
  | _ + 1, [] => ([], none)
  | f + 1, c :: rest =>
    if c = 105 then
      match splitAtByte 101 rest with
      | none => ([], some (.valueError "subsection not found"))
      | some (number, after) =>
        if number = [] ∨ number = [45] ∨
            ((number.dropWhile (fun b => b == 45)).head? = some 48 ∧
              (number.dropWhile (fun b => b == 45)).length > 1) then
          ([], some (.syntaxError "Invalid integer value"))
        else
          let r := tokF f after
          ([105] :: number :: [101] :: r.1, r.2)
    else if c = 108 ∨ c = 100 ∨ c = 101 then
      let r := tokF f rest
      ([c] :: r.1, r.2)
    else if 48 ≤ c ∧ c ≤ 57 then
      match splitAtByte 58 (c :: rest) with
      | none => ([], some (.valueError "subsection not found"))
      | some (lb, after) =>
        if bytesIsDigit lb = false then
          ([], some (.syntaxError "Invalid string length prefix"))
        else if digitsVal lb > after.length then
          ([], some (.syntaxError "Unexpected end of data in string"))
        else
          let r := tokF f (after.drop (digitsVal lb))
          ([115] :: after.take (digitsVal lb) :: r.1, r.2)
    else ([], some (.syntaxError "Unexpected character"))

/-- `tokenize` from `bendecode.py` (fuel instantiated; see `tokF`). -/
def tokenize (data : List Nat) : List Token × Option PyErr :=
  tokF (data.length + 1) data

/-- One pull on the token generator: the next token, or the exception the
generator raises past its last yield (its scan error, else `StopIteration`).
This is the `next_token()` of `decode_item`. -/
def nextTok (te : Option PyErr) : List Token → Except PyErr (Token × List Token)
  | [] => .error (te.getD .stopIteration)
  | t :: ts => .ok (t, ts)

/-- Python hashability of a decoded value: lists and dicts are unhashable
(`result[key] = value` raises `TypeError` on them). -/
def pyHashable : Value → Bool
  | .list _ => false
  | .dict _ => false
  | _ => true

/-- Python `result[key] = value` on an insertion-ordered dict: replace the
value at an existing equal key (keeping its position and original key
object), else append the new binding. -/
def dictSet (m : List (Value × Value)) (k v : Value) : List (Value × Value) :=
  match m with
  | [] => [(k, v)]
  | p :: rest => if vbeq p.1 k then (p.1, v) :: rest else p :: dictSet rest k v

mutual

/-- `decode_item` from `bendecode.py`: recursive-descent decoding of one
value given the current token and the rest of the token stream.  Branches in
source order (`i`, `s`, `l`, `d`, else `ValueError`).  Fuel is structural;
`decode` supplies enough that `outOfFuel` is unreachable. -/
def decode_item : Nat → Option PyErr → Token → List Token → Except PyErr (Value × List Token)
  | 0, _, _, _ => .error .outOfFuel
  | f + 1, te, tok, ts =>
    if tok = [105] then
      match nextTok te ts with
      | .error e => .error e
      | .ok (numTok, ts1) =>
        match pyIntParse numTok with
        | none => .error (.valueError "invalid literal for int")
        | some n =>
          match nextTok te ts1 with
          | .error e => .error e
          | .ok (endTok, ts2) =>
            if endTok = [101] then .ok (.int n, ts2)
            else .error (.valueError "Invalid integer termination")
    else if tok = [115] then
      match nextTok te ts with
      | .error e => .error e
      | .ok (payload, ts1) => .ok (.str payload, ts1)
    else if tok = [108] then
      match decodeSeq f te ts with
      | .error e => .error e
      | .ok (vs, ts1) => .ok (.list vs, ts1)
    else if tok = [100] then
      match decodeMap f te [] ts with
      | .error e => .error e
      | .ok (m, ts1) => .ok (.dict m, ts1)
    else .error (.valueError "Unexpected token")

/-- The `l` loop of `decode_item`: decode children until an `e` token. -/
def decodeSeq : Nat → Option PyErr → List Token → Except PyErr (List Value × List Token)
  | 0, _, _ => .error .outOfFuel
  | f + 1, te, ts =>
    match nextTok te ts with
    | .error e => .error e
    | .ok (tok, ts1) =>
      if tok = [101] then .ok ([], ts1)
      else
        match decode_item f te tok ts1 with
        | .error e => .error e
        | .ok (v, ts2) =>
          match decodeSeq f te ts2 with
          | .error e => .error e
          | .ok (vs, ts3) => .ok (v :: vs, ts3)

/-- The `d` loop of `decode_item`: decode key/value pairs until an `e` token,
binding each pair with `result[key] = value` (which silently overwrites an
equal earlier key and raises `TypeError` on unhashable keys). -/
def decodeMap : Nat → Option PyErr → List (Value × Value) → List Token → Except PyErr (List (Value × Value) × List Token)
  | 0, _, _, _ => .error .outOfFuel
  | f + 1, te, acc, ts =>
    match nextTok te ts with
    | .error e => .error e
    | .ok (tok, ts1) =>
      if tok = [101] then .ok (acc, ts1)
      else
        match decode_item f te tok ts1 with
        | .error e => .error e
        | .ok (key, ts2) =>
          match nextTok te ts2 with
          | .error e => .error e
          | .ok (vtok, ts3) =>
            match decode_item f te vtok ts3 with
            | .error e => .error e
            | .ok (value, ts4) =>
              if pyHashable key then decodeMap f te (dictSet acc key value) ts4
              else .error (.typeError "unhashable type")

end

/-- `decode` from `bendecode.py`: tokenize, decode one item off the stream,
then fail with `SyntaxError` if another token can be pulled (the `for _ in
tokens: raise` loop); pulling past the last token re-raises the tokenizer's
pending error when it has one. -/
def decode (data : List Nat) : Except PyErr Value :=
  match tokenize data with
  | (ts, te) =>
    match ts with
    | [] => .error (te.getD .stopIteration)
    | t :: rest =>
      match decode_item (2 * rest.length + 2) te t rest with
      | .error e => .error e
      | .ok (v, remaining) =>
        match remaining, te with
        | _ :: _, _ => .error (.syntaxError "Trailing data after valid bencode")
        | [], some e => .error e
        | [], none => .ok v

/-- Truncate to a 32-bit word. -/
def w32 (x : Nat) : Nat := x % 4294967296

/-- Rotate a 32-bit word left by `s` bits. -/
def rotl (s x : Nat) : Nat := w32 (x * 2 ^ s + x / 2 ^ (32 - s))

/-- Big-endian bytes of `n`, `k` bytes wide. -/
def beBytes : Nat → Nat → List Nat
  | 0, _ => []
  | k + 1, n => beBytes k (n / 256) ++ [n % 256]

/-- Group bytes into 32-bit big-endian words. -/
def bytesToWords : List Nat → List Nat
  | b0 :: b1 :: b2 :: b3 :: rest =>
      (b0 * 16777216 + b1 * 65536 + b2 * 256 + b3) :: bytesToWords rest
  | _ => []

/-- SHA-1 message padding: a `0x80` byte, zeros to 56 mod 64, then the
64-bit big-endian bit length. -/
def sha1Pad (msg : List Nat) : List Nat :=
  msg ++ [128] ++ List.replicate ((119 - msg.length % 64) % 64) 0 ++
    beBytes 8 (8 * msg.length)

/-- Split a byte list into 64-byte blocks (fueled, see `tokF` for the idiom). -/
def chunksF : Nat → List Nat → List (List Nat)
  | 0, _ => []
  | f + 1, l => if l.isEmpty then [] else l.take 64 :: chunksF f (l.drop 64)

/-- SHA-1 message-schedule expansion from 16 to 80 words. -/
def sha1ExpandGo : Nat → List Nat → List Nat
  | 0, w => w
  | k + 1, w =>
      sha1ExpandGo k (w ++ [rotl 1 ((w.getD (w.length - 3) 0) ^^^ (w.getD (w.length - 8) 0) ^^^
        (w.getD (w.length - 14) 0) ^^^ (w.getD (w.length - 16) 0))])

/-- SHA-1 round function for round `t`. -/
def sha1F (t b c d : Nat) : Nat :=
  if t < 20 then (b &&& c) ||| ((4294967295 - b) &&& d)
  else if t < 40 then b ^^^ c ^^^ d
  else if t < 60 then (b &&& c) ||| (b &&& d) ||| (c &&& d)
  else b ^^^ c ^^^ d

/-- SHA-1 round constant for round `t`. -/
def sha1K (t : Nat) : Nat :=
  if t < 20 then 1518500249
  else if t < 40 then 1859775393
  else if t < 60 then 2400959708
  else 3395469782

/-- One SHA-1 round: update the five-word state with word `w` of round `t`. -/
def sha1Round (st : Nat × Nat × Nat × Nat × Nat) (tw : Nat × Nat) :
    Nat × Nat × Nat × Nat × Nat :=
  (w32 (rotl 5 st.1 + sha1F tw.1 st.2.1 st.2.2.1 st.2.2.2.1 + st.2.2.2.2 +
      sha1K tw.1 + tw.2),
    st.1, rotl 30 st.2.1, st.2.2.1, st.2.2.2.1)

/-- Process one 64-byte block into the running SHA-1 state. -/
def sha1Block (h : Nat × Nat × Nat × Nat × Nat) (block : List Nat) :
    Nat × Nat × Nat × Nat × Nat :=
  let w := sha1ExpandGo 64 (bytesToWords block)
  let r := ((List.range 80).zip w).foldl sha1Round h
  (w32 (h.1 + r.1), w32 (h.2.1 + r.2.1), w32 (h.2.2.1 + r.2.2.1),
    w32 (h.2.2.2.1 + r.2.2.2.1), w32 (h.2.2.2.2 + r.2.2.2.2))

/-- Model of `hashlib.sha1(...)`: the 20-byte SHA-1 digest of a byte string
(FIPS 180 reference algorithm; `hashlib` is an external library, so the
algorithm it implements is embedded directly). -/
def sha1 (msg : List Nat) : List Nat :=
  let padded := sha1Pad msg
  let h := (chunksF (padded.length + 1) padded).foldl sha1Block
    (1732584193, 4023233417, 2562383102, 271733878, 3285377520)
  beBytes 4 h.1 ++ beBytes 4 h.2.1 ++ beBytes 4 h.2.2.1 ++
    beBytes 4 h.2.2.2.1 ++ beBytes 4 h.2.2.2.2

/-- The lowercase hexadecimal digit characters. -/
def hexChars : List Char := "0123456789abcdef".data

/-- Lowercase hex digit character for a value below 16. -/
def hexChar (i : Nat) : Char := hexChars.getD i '0'

/-- Two lowercase hex characters of one byte, as `"%02x"` formats it. -/
def byteHex (b : Nat) : List Char := [hexChar (b / 16 % 16), hexChar (b % 16)]

/-- Model of `.hexdigest()`: the digest bytes as a lowercase hex string. -/
def hexDigest (bytes : List Nat) : String := String.mk (bytes.map byteHex).flatten

/-- Every character of the string is a lowercase hexadecimal digit. -/
def isLowerHexStr (s : String) : Bool := s.data.all (fun c => hexChars.contains c)

/-- Python `key in dict` / `dict[key]` on an insertion-ordered dict: the
value at the first (and in a real dict, only) key equal to `k`. -/
def dictLookup (k : Value) : List (Value × Value) → Option Value
  | [] => none
  | p :: rest => if vbeq p.1 k then some p.2 else dictLookup k rest

/-- The byte string `info`. -/
def infoKey : List Nat := bstr "info"

/-- The info-hash step of `main` in `bendecode.py`: `if b"info" in torrent:`
compute `hashlib.sha1(encode(torrent[b"info"])).hexdigest()`, else raise
`InvalidFileException`.  For a non-dict `torrent` the `in` test follows
Python semantics: membership on a list, substring on bytes, `TypeError`
otherwise (and a hit on a non-dict makes `torrent[b"info"]` raise
`TypeError`). -/
def infoHash (torrent : Value) : Except PyErr String :=
  match torrent with
  | .dict entries =>
    match dictLookup (.str infoKey) entries with
    | some info => .ok (hexDigest (sha1 (encode info)))
    | none => .error (.invalidFile "No 'info' dictionary found in .torrent file.")
  | .list l =>
    if l.any (fun v => vbeq v (.str infoKey)) then
      .error (.typeError "list indices must be integers or slices, not bytes")
    else .error (.invalidFile "No 'info' dictionary found in .torrent file.")
  | .str b =>
    if (List.range (b.length + 1)).any (fun i => (b.drop i).take 4 = infoKey) then
      .error (.typeError "byte indices must be integers or slices, not bytes")
    else .error (.invalidFile "No 'info' dictionary found in .torrent file.")
  | _ => .error (.typeError "argument is not iterable")

/-- The raw bytes of a byte-string value (`[]` on other kinds; only applied
under a byte-string hypothesis). -/
def strBytes : Value → List Nat
  | .str b => b
  | _ => []

/-- The value is a byte string. -/
def keyIsStr : Value → Bool
  | .str _ => true
  | _ => false

/-- No key of a later entry equals the key of an earlier entry (via the
Python `==` model `vbeq`). -/
def keysDistinct : List (Value × Value) → Bool
  | [] => true
  | p :: rest => rest.all (fun q => !vbeq q.1 p.1) && keysDistinct rest

/-- A valid bencode value tree in the sense of the specification: built from
integers, byte strings, lists and dictionaries only, with every dictionary
keyed by distinct byte strings (fueled; see `validB`). -/
def validF : Nat → Value → Bool
  | 0, _ => false
  | _ + 1, .int _ => true
  | _ + 1, .str _ => true
  | _ + 1, .text _ => false
  | f + 1, .list l => l.all (validF f)
  | f + 1, .dict l =>
      keysDistinct l && l.all (fun p => keyIsStr p.1 && validF f p.2)

/-- A valid bencode value tree (see `validF`). -/
def validB (v : Value) : Bool := validF (vsize v + 1) v

/-- Canonical form of a value: every dictionary's entries rewritten into
canonical (sorted-by-key) order.  `decode (encode v)` returns exactly
`canon v`. -/
def canonF : Nat → Value → Value
  | 0, v => v
  | _ + 1, .int n => .int n
  | _ + 1, .str b => .str b
  | _ + 1, .text s => .text s
  | f + 1, .list l => .list (l.map (canonF f))
  | f + 1, .dict l =>
      .dict ((List.insertionSort pairLe l).map (fun p => (canonF f p.1, canonF f p.2)))

/-- Canonical form of a value (see `canonF`). -/
def canon (v : Value) : Value := canonF (vsize v + 1) v

/-- Python structural equality `==` between decoded value trees: ints, byte
strings and text compare by content, lists element-wise in order, and
dictionaries as finite maps — same size and every binding of the first found
(by key) in the second with an equal value, regardless of entry order.  This
is the "structural equality respecting Dictionary key uniqueness and List
order" of the specification's round-trip property. -/
def equivF : Nat → Value → Value → Bool
  | 0, _, _ => false
  | _ + 1, .int a, .int b => a == b
  | _ + 1, .str a, .str b => a == b
  | _ + 1, .text a, .text b => a == b
  | f + 1, .list a, .list b =>
      a.length == b.length && (a.zip b).all (fun p => equivF f p.1 p.2)
  | f + 1, .dict a, .dict b =>
      a.length == b.length && a.all (fun p =>
        match dictLookup p.1 b with
        | some w => equivF f p.2 w
        | none => false)
  | _ + 1, _, _ => false

/-- Python `==` between decoded value trees (see `equivF`). -/
def pyEquiv (a b : Value) : Bool := equivF (vsize a + 1) a b

/-- The token sequence `tokenize` yields on `encode v` (fueled). -/
def toksF : Nat → Value → List Token
  | 0, _ => []
  | _ + 1, .int n => [[105], intDec n, [101]]
  | _ + 1, .str b => [[115], b]
  | _ + 1, .text s => [[115], utf8Bytes s]
  | f + 1, .list l => [108] :: ((l.map (toksF f)).flatten ++ [[101]])
  | f + 1, .dict l =>
      [100] :: (((List.insertionSort pairLe l).map
        (fun p => toksF f p.1 ++ toksF f p.2)).flatten ++ [[101]])

/-- The token sequence `tokenize` yields on `encode v` (see `toksF`). -/
def toks (v : Value) : List Token := toksF (vsize v + 1) v

/-! ### Supporting lemmas: sizes and fuel irrelevance -/

theorem vsize_pos (v : Value) : 1 ≤ vsize v := by
  cases v <;> simp [vsize]

theorem vsize_le_vsizeList {x : Value} {l : List Value} (h : x ∈ l) :
    vsize x ≤ vsizeList l := by
  induction l with
  | nil => cases h
  | cons y ys ih =>
    simp only [vsizeList]
    rcases List.mem_cons.mp h with rfl | h2
    · omega
    · have := ih h2; omega

theorem vsize_le_vsizePairs {p : Value × Value} {l : List (Value × Value)} (h : p ∈ l) :
    1 + vsize p.1 + vsize p.2 ≤ vsizePairs l := by
  induction l with
  | nil => cases h
  | cons q qs ih =>
    simp only [vsizePairs]
    rcases List.mem_cons.mp h with rfl | h2
    · omega
    · have := ih h2; omega

theorem mem_insertionSort_pairLe {p : Value × Value} {l : List (Value × Value)}
    (h : p ∈ List.insertionSort pairLe l) : p ∈ l :=
  (List.perm_insertionSort pairLe l).mem_iff.mp h

theorem encF_irrel (f : Nat) : ∀ (g : Nat) (v : Value),
    vsize v ≤ f → vsize v ≤ g → encodeF f v = encodeF g v := by
  induction f using Nat.strong_induction_on with
  | _ f ih =>
    intro g v hf hg
    have h1 := vsize_pos v
    obtain ⟨f', rfl⟩ : ∃ f', f = f' + 1 := ⟨f - 1, by omega⟩
    obtain ⟨g', rfl⟩ : ∃ g', g = g' + 1 := ⟨g - 1, by omega⟩
    cases v with
    | int n => rfl
    | str b => rfl
    | text s => rfl
    | list l =>
      simp only [vsize] at hf hg
      simp only [encodeF]
      have hm : l.map (encodeF f') = l.map (encodeF g') := by
        apply List.map_congr_left
        intro x hx
        have hs := vsize_le_vsizeList hx
        exact ih f' (by omega) g' x (by omega) (by omega)
      rw [hm]
    | dict l =>
      simp only [vsize] at hf hg
      simp only [encodeF]
      have hm : (List.insertionSort pairLe l).map (fun p => encodeF f' p.1 ++ encodeF f' p.2)
          = (List.insertionSort pairLe l).map (fun p => encodeF g' p.1 ++ encodeF g' p.2) := by
        apply List.map_congr_left
        intro p hp
        have hs := vsize_le_vsizePairs (mem_insertionSort_pairLe hp)
        rw [ih f' (by omega) g' p.1 (by omega) (by omega),
          ih f' (by omega) g' p.2 (by omega) (by omega)]
      rw [hm]

theorem encode_int (n : Int) : encode (.int n) = 105 :: (intDec n ++ [101]) := rfl

theorem encode_str (b : List Nat) : encode (.str b) = natDigits b.length ++ 58 :: b := rfl

theorem encode_text (s : String) :
    encode (.text s) = natDigits (utf8Bytes s).length ++ 58 :: utf8Bytes s := rfl

theorem encode_list (l : List Value) :
    encode (.list l) = 108 :: ((l.map encode).flatten ++ [101]) := by
  show encodeF (vsize (.list l) + 1) _ = _
  simp only [encodeF]
  have hm : l.map (encodeF (vsize (.list l))) = l.map encode := by
    apply List.map_congr_left
    intro x hx
    have hs := vsize_le_vsizeList hx
    have hp := vsize_pos (Value.list l)
    simp only [vsize] at hs ⊢
    exact encF_irrel _ _ x (by omega) (by omega)
  rw [hm]

theorem encode_dict (l : List (Value × Value)) :
    encode (.dict l) = 100 ::
      (((List.insertionSort pairLe l).map (fun p => encode p.1 ++ encode p.2)).flatten ++ [101]) := by
  show encodeF (vsize (.dict l) + 1) _ = _
  simp only [encodeF]
  have hm : (List.insertionSort pairLe l).map
        (fun p => encodeF (vsize (.dict l)) p.1 ++ encodeF (vsize (.dict l)) p.2)
      = (List.insertionSort pairLe l).map (fun p => encode p.1 ++ encode p.2) := by
    apply List.map_congr_left
    intro p hp
    have hs := vsize_le_vsizePairs (mem_insertionSort_pairLe hp)
    simp only [vsize] at hs ⊢
    rw [encF_irrel (1 + vsizePairs l) (vsize p.1 + 1) p.1 (by omega) (by omega),
      encF_irrel (1 + vsizePairs l) (vsize p.2 + 1) p.2 (by omega) (by omega)]
    rfl
  rw [hm]

/-! ### Supporting lemmas: the key order is total and transitive -/

theorem bytesLe_total : ∀ a b : List Nat, bytesLe a b = true ∨ bytesLe b a = true := by
  intro a
  induction a with
  | nil => intro b; left; rfl
  | cons x xs ih =>
    intro b
    cases b with
    | nil => right; rfl
    | cons y ys =>
      by_cases hxy : x < y
      · left; simp [bytesLe, hxy]
      · by_cases heq : x = y
        · subst heq
          rcases ih ys with h | h
          · left; simp [bytesLe, hxy, h]
          · right; simp [bytesLe, hxy, h]
        · have hyx : y < x := by omega
          right; simp [bytesLe, hyx]

theorem bytesLe_trans : ∀ a b c : List Nat,
    bytesLe a b = true → bytesLe b c = true → bytesLe a c = true := by
  intro a
  induction a with
  | nil => intro b c _ _; rfl
  | cons x xs ih =>
    intro b c hab hbc
    cases b with
    | nil => simp [bytesLe] at hab
    | cons y ys =>
      cases c with
      | nil => simp [bytesLe] at hbc
      | cons z zs =>
        simp only [bytesLe] at hab hbc ⊢
        split_ifs at hab hbc ⊢ with h1 h2 h3 h4 h5 h6 <;>
          first
            | rfl
            | omega
            | (exact ih ys zs hab hbc)

theorem sameKindLe_total : ∀ a b : Value, sameKindLe a b = true ∨ sameKindLe b a = true := by
  intro a b
  cases a <;> cases b <;> simp [sameKindLe] <;>
    first
      | exact Int.le_total _ _
      | exact bytesLe_total _ _

theorem keyLeB_total : ∀ a b : Value, keyLeB a b = true ∨ keyLeB b a = true := by
  intro a b
  unfold keyLeB
  by_cases h1 : kindRank a < kindRank b
  · left; simp [h1]
  · by_cases h2 : kindRank b < kindRank a
    · right; simp [h2]
    · simp only [h1, h2, if_false]
      exact sameKindLe_total a b

theorem sameKindLe_trans : ∀ a b c : Value, kindRank a = kindRank b → kindRank b = kindRank c →
    sameKindLe a b = true → sameKindLe b c = true → sameKindLe a c = true := by
  intro a b c hab hbc h1 h2
  cases a <;> cases b <;> cases c <;> simp [kindRank] at hab hbc <;> simp [sameKindLe] at h1 h2 ⊢ <;>
    first
      | exact le_trans h1 h2
      | exact bytesLe_trans _ _ _ h1 h2

theorem keyLeB_trans : ∀ a b c : Value,
    keyLeB a b = true → keyLeB b c = true → keyLeB a c = true := by
  intro a b c h1 h2
  unfold keyLeB at h1 h2 ⊢
  split_ifs at h1 h2 ⊢ with g1 g2 g3 g4 g5 g6 <;>
    first
      | rfl
      | omega
      | (exact sameKindLe_trans a b c (by omega) (by omega) h1 h2)

/-! ### Claim theorems: error handling and ordering -/

/-- Claim C2 counterexample: the input `d1:ai1e1:ai2ee`, whose dictionary
repeats the key `a`, does not fail at all — it decodes successfully, the
later binding having overwritten the earlier one. -/
theorem c2_counterexample :
    decode (bstr "d1:ai1e1:ai2ee") = .ok (.dict [(.str [97], .int 2)]) := rfl

/-- Claim C2 (amended): decoding tolerates duplicate dictionary keys; a
repeated key silently overwrites the earlier binding in place
(`result[key] = value`), and `d1:ai1e1:ai2ee` decodes to the dictionary
mapping `a` to 2. -/
theorem c2_duplicate_keys_overwrite :
    decode (bstr "d1:ai1e1:ai2ee") = .ok (.dict [(.str [97], .int 2)]) ∧
    (∀ (pre post : List (Value × Value)) (k v w : Value),
      (∀ q ∈ pre, vbeq q.1 k = false) → vbeq k k = true →
      dictSet (pre ++ (k, v) :: post) k w = pre ++ (k, w) :: post) := by
  refine ⟨rfl, ?_⟩
  intro pre post k v w hfresh hrefl
  induction pre with
  | nil => simp [dictSet, hrefl]
  | cons q qs ih =>
    have hq : vbeq q.1 k = false := hfresh q (List.mem_cons_self q qs)
    simp only [List.cons_append, dictSet, hq, Bool.false_eq_true, if_false]
    exact congrArg (q :: ·) (ih (fun r hr => hfresh r (List.mem_cons_of_mem q hr)))

/-- Claim C2 witness: the overwrite lemma applied to the binding that
`d1:ai1e1:ai2ee` produces. -/
theorem c2_duplicate_keys_overwrite_witness :
    decode (bstr "d1:ai1e1:ai2ee") = .ok (.dict [(.str [97], .int 2)]) ∧
    dictSet [(Value.str [97], Value.int 1)] (Value.str [97]) (Value.int 2)
      = [(Value.str [97], Value.int 2)] := by
  refine ⟨c2_duplicate_keys_overwrite.1, ?_⟩
  have h := c2_duplicate_keys_overwrite.2 [] [] (Value.str [97]) (Value.int 1) (Value.int 2)
    (by intro q hq; cases hq) (by decide)
  simpa using h

/-- Claim C4 counterexample: `i-0e` (negative zero) is accepted by the
tokenizer — `b"-0".lstrip(b"-")` is the single byte `0`, so the
leading-zero test does not fire — and decodes to the integer 0. -/
theorem c4_counterexample : decode (bstr "i-0e") = .ok (.int 0) := rfl

/-- Claim C4 (amended): an integer literal whose digit run is empty, is
exactly a minus sign, or has a leading zero with more than one digit makes
tokenization fail with `SyntaxError`; in particular `i03e`, `ie` and `i-e`
fail.  Negative zero however is accepted: `i-0e` decodes to 0. -/
theorem c4_malformed_integers :
    (∀ (rest number after : List Nat),
      splitAtByte 101 rest = some (number, after) →
      (number = [] ∨ number = [45] ∨
        ((number.dropWhile (fun b => b == 45)).head? = some 48 ∧
          (number.dropWhile (fun b => b == 45)).length > 1)) →
      tokenize (105 :: rest) = ([], some (.syntaxError "Invalid integer value"))) ∧
    decode (bstr "i03e") = .error (.syntaxError "Invalid integer value") ∧
    decode (bstr "ie") = .error (.syntaxError "Invalid integer value") ∧
    decode (bstr "i-e") = .error (.syntaxError "Invalid integer value") ∧
    decode (bstr "i-0e") = .ok (.int 0) := by
  refine ⟨?_, rfl, rfl, rfl, rfl⟩
  intro rest number after hsplit hbad
  show tokF ((105 :: rest).length + 1) (105 :: rest) = _
  simp only [List.length_cons, tokF]
  rw [if_pos trivial, hsplit]
  simp only [if_pos hbad]

/-- Claim C4 witness: the tokenizer rejection applied to the digit run of
`i03e`. -/
theorem c4_malformed_integers_witness :
    splitAtByte 101 [48, 51, 101] = some ([48, 51], []) ∧
    tokenize (105 :: [48, 51, 101]) = ([], some (.syntaxError "Invalid integer value")) := by
  refine ⟨rfl, ?_⟩
  exact c4_malformed_integers.1 [48, 51, 101] [48, 51] [] rfl (by decide)

/-- Claim C5 counterexample: `di1ei2ee` has the integer key 1, yet decoding
succeeds — there is no strict mode and no byte-string key check. -/
theorem c5_counterexample :
    decode (bstr "di1ei2ee") = .ok (.dict [(.int 1, .int 2)]) := rfl

/-- Claim C5 (amended): the decoder has no strict flag and performs no
byte-string check on dictionary keys: any hashable key (e.g. an integer) is
accepted; only unhashable keys (lists, dicts) fail, with Python's
`TypeError` for unhashable types rather than a key-type message. -/
theorem c5_no_strict_key_check :
    decode (bstr "di1ei2ee") = .ok (.dict [(.int 1, .int 2)]) ∧
    decode (bstr "dlei1ee") = .error (.typeError "unhashable type") ∧
    pyHashable (.int 1) = true ∧ pyHashable (.str []) = true ∧
    pyHashable (.text "x") = true ∧
    pyHashable (.list []) = false ∧ pyHashable (.dict []) = false :=
  ⟨rfl, rfl, rfl, rfl, rfl, rfl, rfl⟩

/-- Claim C6 counterexample: the truncated input `l` is malformed, but the
decode call fails with the generator's `StopIteration`, which is not a
`SyntaxError` of the specification's taxonomy. -/
theorem c6_counterexample :
    decode (bstr "l") = .error .stopIteration ∧ PyErr.isSyntax .stopIteration = false :=
  ⟨rfl, rfl⟩

/-- Claim C6 (amended): malformed tokens (bad integer literal, truncated
string payload, unexpected byte) and trailing data abort the decode call
with `SyntaxError` and no partial value is returned; truncation mid-value
or an empty input, however, aborts with `StopIteration`, an error kind
outside the specification's taxonomy. -/
theorem c6_error_kinds :
    decode (bstr "i0123e") = .error (.syntaxError "Invalid integer value") ∧
    decode (bstr "3:a") = .error (.syntaxError "Unexpected end of data in string") ∧
    decode (bstr "!") = .error (.syntaxError "Unexpected character") ∧
    decode (bstr "0:0:") = .error (.syntaxError "Trailing data after valid bencode") ∧
    decode (bstr "l") = .error .stopIteration ∧
    decode (bstr "d1:a") = .error .stopIteration ∧
    decode (bstr "") = .error .stopIteration ∧
    PyErr.isSyntax .stopIteration = false :=
  ⟨rfl, rfl, rfl, rfl, rfl, rfl, rfl, rfl⟩

/-- Claim C10: `encode` also accepts Python text strings, encoding them
exactly as the byte string of their UTF-8 encoding, so a text string and
its UTF-8 byte string are conflated into one byte-string encoding even
though they are distinct values. -/
theorem c10_text_conflation :
    (∀ s : String, encode (.text s) = encode (.str (utf8Bytes s))) ∧
    encode (.text "ab") = bstr "2:ab" ∧
    encode (.str (bstr "ab")) = bstr "2:ab" ∧
    vbeq (Value.text "ab") (Value.str (bstr "ab")) = false :=
  ⟨fun s => rfl, by decide, by decide, by decide⟩

/-- Claim C8: whenever the token stream still holds tokens after the first
complete top-level value, `decode` fails with the trailing-data
`SyntaxError` and the first value is not returned. -/
theorem c8_trailing_data :
    ∀ (data : List Nat) (t : Token) (rest : List Token) (te : Option PyErr)
      (v : Value) (remaining : List Token),
      tokenize data = (t :: rest, te) →
      decode_item (2 * rest.length + 2) te t rest = .ok (v, remaining) →
      remaining ≠ [] →
      decode data = .error (.syntaxError "Trailing data after valid bencode") ∧
      ∀ w, decode data ≠ .ok w := by
  intro data t rest te v remaining htok hitem hne
  have hd : decode data = .error (.syntaxError "Trailing data after valid bencode") := by
    unfold decode
    rw [htok]
    simp only [hitem]
    cases remaining with
    | nil => exact absurd rfl hne
    | cons r rs => rfl
  exact ⟨hd, by simp [hd]⟩

/-- Claim C8 witness: `i1ei2e` tokenizes to two complete values; decoding
fails with the trailing-data error. -/
theorem c8_trailing_data_witness :
    tokenize (bstr "i1ei2e") = ([[105], [49], [101], [105], [50], [101]], none) ∧
    decode_item (2 * [[49], [101], [105], [50], [101]].length + 2) none [105]
        [[49], [101], [105], [50], [101]] = .ok (.int 1, [[105], [50], [101]]) ∧
    decode (bstr "i1ei2e") = .error (.syntaxError "Trailing data after valid bencode") := by
  refine ⟨by decide, rfl, ?_⟩
  exact (c8_trailing_data (bstr "i1ei2e") [105] [[49], [101], [105], [50], [101]] none
    (.int 1) [[105], [50], [101]] (by decide) rfl (by decide)).1

/-- Claim C9: a string token whose length prefix is pure ASCII digits but
whose declared length overruns the remaining buffer makes tokenization fail
with the truncated-string `SyntaxError`; a length prefix that is not pure
digits fails with the length-prefix `SyntaxError`. -/
theorem c9_truncated_strings :
    ∀ (c : Nat) (rest pre post : List Nat),
      48 ≤ c → c ≤ 57 →
      splitAtByte 58 (c :: rest) = some (pre, post) →
      (bytesIsDigit pre = true → digitsVal pre > post.length →
        tokenize (c :: rest) = ([], some (.syntaxError "Unexpected end of data in string"))) ∧
      (bytesIsDigit pre = false →
        tokenize (c :: rest) = ([], some (.syntaxError "Invalid string length prefix"))) := by
  intro c rest pre post h48 h57 hsplit
  have hni : ¬(c = 105) := by omega
  have hnl : ¬(c = 108 ∨ c = 100 ∨ c = 101) := by omega
  have hd : (48 ≤ c ∧ c ≤ 57) := ⟨h48, h57⟩
  constructor
  · intro hdig hlen
    show tokF ((c :: rest).length + 1) (c :: rest) = _
    simp only [List.length_cons, tokF]
    rw [if_neg hni, if_neg hnl, if_pos hd, hsplit]
    simp [hdig, hlen]
  · intro hdig
    show tokF ((c :: rest).length + 1) (c :: rest) = _
    simp only [List.length_cons, tokF]
    rw [if_neg hni, if_neg hnl, if_pos hd, hsplit]
    simp [hdig]

/-- Claim C9 witness: `5:ab` declares length 5 with only two payload bytes
available, and fails with the truncated-string error. -/
theorem c9_truncated_strings_witness :
    splitAtByte 58 (bstr "5:ab") = some ([53], [97, 98]) ∧
    bytesIsDigit [53] = true ∧ digitsVal [53] > 2 ∧
    tokenize (bstr "5:ab") = ([], some (.syntaxError "Unexpected end of data in string")) ∧
    decode (bstr "5:ab") = .error (.syntaxError "Unexpected end of data in string") := by
  refine ⟨by decide, by decide, by decide, ?_, rfl⟩
  exact (c9_truncated_strings 53 [58, 97, 98] [53] [97, 98] (by decide) (by decide)
    (by decide)).1 (by decide) (by decide)

/-- A value passing the `keyIsStr` test is a byte string. -/
theorem keyIsStr_eq {v : Value} (h : keyIsStr v = true) : ∃ b, v = Value.str b := by
  cases v <;> simp [keyIsStr] at h
  exact ⟨_, rfl⟩

/-- Claim C3: `encode` emits every dictionary's entries sorted ascending by
raw key bytes — the emitted entry list is a permutation of the entries,
pairwise sorted by byte-wise key order — regardless of insertion order. -/
theorem c3_canonical_key_order :
    ∀ (entries : List (Value × Value)),
      (∀ p ∈ entries, keyIsStr p.1 = true) →
      encode (.dict entries) = 100 ::
        (((List.insertionSort pairLe entries).map
          (fun p => encode p.1 ++ encode p.2)).flatten ++ [101]) ∧
      (List.insertionSort pairLe entries).Perm entries ∧
      List.Pairwise (fun p q => bytesLe (strBytes p.1) (strBytes q.1) = true)
        (List.insertionSort pairLe entries) := by
  intro entries hstr
  haveI : IsTotal (Value × Value) pairLe := ⟨fun p q => keyLeB_total p.1 q.1⟩
  haveI : IsTrans (Value × Value) pairLe := ⟨fun p q r => keyLeB_trans p.1 q.1 r.1⟩
  refine ⟨encode_dict entries, List.perm_insertionSort pairLe entries, ?_⟩
  have hsorted : List.Sorted pairLe (List.insertionSort pairLe entries) :=
    List.sorted_insertionSort pairLe entries
  refine List.Pairwise.imp_of_mem ?_ hsorted
  intro p q hp hq hle
  obtain ⟨pb, hpb⟩ := keyIsStr_eq (hstr p (mem_insertionSort_pairLe hp))
  obtain ⟨qb, hqb⟩ := keyIsStr_eq (hstr q (mem_insertionSort_pairLe hq))
  simp [pairLe, hpb, hqb, keyLeB, kindRank, sameKindLe] at hle
  rw [hpb, hqb]
  simpa [strBytes] using hle

/-- Claim C3 witness: a dictionary inserted with keys `b`, `a`, `aa` in that
order encodes with its entries reordered to `a`, `aa`, `b`. -/
theorem c3_canonical_key_order_witness :
    encode (.dict [(Value.str (bstr "b"), Value.int 0), (Value.str (bstr "a"), Value.int 1),
        (Value.str (bstr "aa"), Value.int 2)]) = bstr "d1:ai1e2:aai2e1:bi0ee" ∧
    List.Pairwise (fun p q => bytesLe (strBytes p.1) (strBytes q.1) = true)
      (List.insertionSort pairLe [(Value.str (bstr "b"), Value.int 0),
        (Value.str (bstr "a"), Value.int 1), (Value.str (bstr "aa"), Value.int 2)]) := by
  refine ⟨by decide, ?_⟩
  exact (c3_canonical_key_order _ (by decide)).2.2

/-! ### Claim C7: the info-hash step -/

theorem hexChar_mem : ∀ i < 16, hexChars.contains (hexChar i) = true := by decide

theorem isLowerHex_hexDigest (bytes : List Nat) : isLowerHexStr (hexDigest bytes) = true := by
  unfold isLowerHexStr hexDigest
  rw [List.all_eq_true]
  intro c hc
  have hc' : c ∈ (bytes.map byteHex).flatten := hc
  obtain ⟨sub, hsub, hcsub⟩ := List.mem_flatten.mp hc'
  obtain ⟨b, hb, rfl⟩ := List.mem_map.mp hsub
  simp only [byteHex, List.mem_cons, List.not_mem_nil, or_false] at hcsub
  rcases hcsub with rfl | rfl
  · exact hexChar_mem _ (by omega)
  · exact hexChar_mem _ (by omega)

/-- Claim C7: when the decoded top-level dictionary lacks the 4-byte key
`info`, the info-hash step fails with `InvalidFileException`, an error kind
distinct from the syntax/parse kinds; when the key is present, the info
subtree is canonically encoded and its SHA-1 digest exposed as a lowercase
hexadecimal string. -/
theorem c7_info_hash :
    ∀ (entries : List (Value × Value)),
      (dictLookup (.str infoKey) entries = none →
        infoHash (.dict entries) =
          .error (.invalidFile "No 'info' dictionary found in .torrent file.") ∧
        PyErr.isSyntax (.invalidFile "No 'info' dictionary found in .torrent file.") = false ∧
        PyErr.isParseKind (.invalidFile "No 'info' dictionary found in .torrent file.") = false) ∧
      (∀ info, dictLookup (.str infoKey) entries = some info →
        infoHash (.dict entries) = .ok (hexDigest (sha1 (encode info))) ∧
        isLowerHexStr (hexDigest (sha1 (encode info))) = true) := by
  intro entries
  constructor
  · intro hnone
    refine ⟨?_, rfl, rfl⟩
    simp only [infoHash]
    rw [hnone]
  · intro info hsome
    refine ⟨?_, isLowerHex_hexDigest _⟩
    simp only [infoHash]
    rw [hsome]

/-- Claim C7 witness: decoding `de` yields the empty dictionary, whose
info-hash request fails with `InvalidFileException`; with an `info` entry
present the SHA-1 digest is returned. -/
theorem c7_info_hash_witness :
    decode (bstr "de") = .ok (.dict []) ∧
    dictLookup (.str infoKey) ([] : List (Value × Value)) = none ∧
    infoHash (.dict []) =
      .error (.invalidFile "No 'info' dictionary found in .torrent file.") ∧
    dictLookup (.str infoKey) [(Value.str infoKey, Value.dict [])] = some (.dict []) ∧
    infoHash (.dict [(Value.str infoKey, Value.dict [])]) =
      .ok (hexDigest (sha1 (encode (.dict [])))) ∧
    isLowerHexStr (hexDigest (sha1 (encode (.dict [])))) = true := by
  refine ⟨rfl, rfl, ?_, rfl, ?_, ?_⟩
  · exact ((c7_info_hash []).1 rfl).1
  · exact ((c7_info_hash [(Value.str infoKey, Value.dict [])]).2 (.dict []) rfl).1
  · exact ((c7_info_hash [(Value.str infoKey, Value.dict [])]).2 (.dict []) rfl).2

/-! ### Round trip, stage A: decimal formatting and Python int parsing -/

theorem list_all_congr {α : Type} {p q : α → Bool} :
    ∀ l : List α, (∀ x ∈ l, p x = q x) → l.all p = l.all q := by
  intro l h
  induction l with
  | nil => rfl
  | cons a as ih =>
    simp only [List.all_cons, h a (List.mem_cons_self a as),
      ih (fun x hx => h x (List.mem_cons_of_mem a hx))]

theorem natDigitsF_irrel : ∀ (f n : Nat), n < f → natDigitsF f n = natDigits n := by
  intro f
  induction f using Nat.strong_induction_on with
  | _ f ih =>
    intro n hn
    obtain ⟨f', rfl⟩ : ∃ f', f = f' + 1 := ⟨f - 1, by omega⟩
    show natDigitsF (f' + 1) n = natDigitsF (n + 1) n
    by_cases h10 : n < 10
    · simp [natDigitsF, h10]
    · have hdiv : n / 10 < n := Nat.div_lt_self (by omega) (by omega)
      simp only [natDigitsF, if_neg h10]
      rw [ih f' (by omega) (n / 10) (by omega), ih n (by omega) (n / 10) (by omega)]

theorem natDigits_ne_nil (n : Nat) : natDigits n ≠ [] := by
  unfold natDigits
  by_cases h10 : n < 10 <;> simp [natDigitsF, h10]

theorem natDigits_all_digit : ∀ n : Nat, ∀ c ∈ natDigits n, 48 ≤ c ∧ c ≤ 57 := by
  intro n
  induction n using Nat.strong_induction_on with
  | _ n ih =>
    intro c hc
    by_cases h10 : n < 10
    · simp [natDigits, natDigitsF, h10] at hc
      omega
    · have hdiv : n / 10 < n := Nat.div_lt_self (by omega) (by omega)
      rw [natDigits, natDigitsF, if_neg h10, natDigitsF_irrel n (n / 10) (by omega)] at hc
      rcases List.mem_append.mp hc with h | h
      · exact ih (n / 10) hdiv c h
      · simp at h
        have : n % 10 < 10 := Nat.mod_lt _ (by omega)
        omega

theorem natDigits_head : ∀ n : Nat, n ≠ 0 → ∀ d ds, natDigits n = d :: ds → d ≠ 48 := by
  intro n
  induction n using Nat.strong_induction_on with
  | _ n ih =>
    intro hn d ds hform
    by_cases h10 : n < 10
    · simp [natDigits, natDigitsF, h10] at hform
      omega
    · have hdiv : n / 10 < n := Nat.div_lt_self (by omega) (by omega)
      rw [natDigits, natDigitsF, if_neg h10, natDigitsF_irrel n (n / 10) (by omega)] at hform
      obtain ⟨d0, ds0, hd0⟩ : ∃ d0 ds0, natDigits (n / 10) = d0 :: ds0 := by
        cases h : natDigits (n / 10) with
        | nil => exact absurd h (natDigits_ne_nil _)
        | cons a as => exact ⟨a, as, rfl⟩
      rw [hd0] at hform
      simp only [List.cons_append, List.cons.injEq] at hform
      have hne : n / 10 ≠ 0 := by omega
      exact hform.1 ▸ ih (n / 10) hdiv hne d0 ds0 hd0

theorem digitsVal_append_one (xs : List Nat) (d : Nat) :
    digitsVal (xs ++ [d]) = 10 * digitsVal xs + (d - 48) := by
  unfold digitsVal
  rw [List.foldl_append]
  simp [Nat.mul_comm]

theorem digitsVal_natDigits : ∀ n : Nat, digitsVal (natDigits n) = n := by
  intro n
  induction n using Nat.strong_induction_on with
  | _ n ih =>
    by_cases h10 : n < 10
    · simp [natDigits, natDigitsF, h10, digitsVal]
    · have hdiv : n / 10 < n := Nat.div_lt_self (by omega) (by omega)
      rw [natDigits, natDigitsF, if_neg h10, natDigitsF_irrel n (n / 10) (by omega),
        digitsVal_append_one, ih (n / 10) hdiv]
      have h1 : n % 10 < 10 := Nat.mod_lt _ (by omega)
      have h2 : 10 * (n / 10) + n % 10 = n := Nat.div_add_mod n 10
      omega

theorem bytesIsDigit_natDigits (n : Nat) : bytesIsDigit (natDigits n) = true := by
  unfold bytesIsDigit
  rw [Bool.and_eq_true, List.all_eq_true]
  constructor
  · cases h : natDigits n with
    | nil => exact absurd h (natDigits_ne_nil n)
    | cons a as => simp
  · intro c hc
    have := natDigits_all_digit n c hc
    simp [isDigitByte]
    omega

theorem dropWhile_eq_self_of_all {p : Nat → Bool} {l : List Nat}
    (h : ∀ c ∈ l, p c = false) : l.dropWhile p = l := by
  cases l with
  | nil => rfl
  | cons a as => simp [List.dropWhile_cons, h a (List.mem_cons_self a as)]

theorem pyStrip_noop {l : List Nat} (h : ∀ c ∈ l, pyWs c = false) : pyStrip l = l := by
  unfold pyStrip
  rw [dropWhile_eq_self_of_all h,
    dropWhile_eq_self_of_all (fun c hc => h c (List.mem_reverse.mp hc)),
    List.reverse_reverse]

theorem pyWs_digit {c : Nat} (h1 : 48 ≤ c) (h2 : c ≤ 57) : pyWs c = false := by
  simp [pyWs]
  omega

theorem pyWs_minus : pyWs 45 = false := rfl

theorem pyDigitsGo_digits : ∀ (l : List Nat) (acc : Nat),
    (∀ c ∈ l, isDigitByte c = true) →
    pyDigitsGo acc l = some (l.foldl (fun a d => a * 10 + (d - 48)) acc) := by
  intro l
  induction l with
  | nil => intro acc _; rfl
  | cons c cs ih =>
    intro acc h
    have hc : isDigitByte c = true := h c (List.mem_cons_self c cs)
    have hc' : ¬(c = 95) := by
      simp [isDigitByte] at hc
      omega
    rw [pyDigitsGo.eq_def]
    simp only [if_neg hc', if_pos hc, List.foldl_cons]
    exact ih _ (fun x hx => h x (List.mem_cons_of_mem c hx))

theorem pyDigits_natDigits (m : Nat) : pyDigits (natDigits m) = some m := by
  obtain ⟨d, ds, hform⟩ : ∃ d ds, natDigits m = d :: ds := by
    cases h : natDigits m with
    | nil => exact absurd h (natDigits_ne_nil m)
    | cons a as => exact ⟨a, as, rfl⟩
  have hd : isDigitByte d = true := by
    have := natDigits_all_digit m d (by rw [hform]; exact List.mem_cons_self d ds)
    simp [isDigitByte]
    omega
  rw [hform]
  simp only [pyDigits, if_pos hd]
  rw [pyDigitsGo_digits ds (d - 48) (fun c hc => by
    have := natDigits_all_digit m c (by rw [hform]; exact List.mem_cons_of_mem d hc)
    simp [isDigitByte]
    omega)]
  have : digitsVal (d :: ds) = ds.foldl (fun a d => a * 10 + (d - 48)) (d - 48) := by
    simp [digitsVal]
  rw [← this, ← hform, digitsVal_natDigits]

theorem pyIntParse_intDec : ∀ n : Int, pyIntParse (intDec n) = some n := by
  intro n
  by_cases hneg : n < 0
  · have hidec : intDec n = 45 :: natDigits (-n).toNat := by simp [intDec, hneg]
    have hstrip : pyStrip (intDec n) = intDec n := by
      apply pyStrip_noop
      intro c hc
      rw [hidec] at hc
      rcases List.mem_cons.mp hc with rfl | hc2
      · exact pyWs_minus
      · have := natDigits_all_digit _ c hc2
        exact pyWs_digit this.1 this.2
    unfold pyIntParse
    rw [hstrip, hidec]
    show (pyDigits (natDigits (-n).toNat)).map (fun k => -(k : Int)) = some n
    rw [pyDigits_natDigits]
    show some (-(((-n).toNat : Nat) : Int)) = some n
    congr 1
    omega
  · have hidec : intDec n = natDigits n.toNat := by simp [intDec, hneg]
    have hstrip : pyStrip (intDec n) = intDec n := by
      apply pyStrip_noop
      intro c hc
      rw [hidec] at hc
      have := natDigits_all_digit _ c hc
      exact pyWs_digit this.1 this.2
    obtain ⟨d, ds, hform⟩ : ∃ d ds, natDigits n.toNat = d :: ds := by
      cases h : natDigits n.toNat with
      | nil => exact absurd h (natDigits_ne_nil _)
      | cons a as => exact ⟨a, as, rfl⟩
    have hd48 : 48 ≤ d ∧ d ≤ 57 :=
      natDigits_all_digit _ d (by rw [hform]; exact List.mem_cons_self d ds)
    unfold pyIntParse
    rw [hstrip, hidec, hform]
    split
    · next rest heq =>
      injection heq with h1 _
      omega
    · next rest heq =>
      injection heq with h1 _
      omega
    · rw [← hform, pyDigits_natDigits]
      show some ((n.toNat : Nat) : Int) = some n
      congr 1
      omega

theorem intDec_mem : ∀ (n : Int), ∀ c ∈ intDec n, c = 45 ∨ (48 ≤ c ∧ c ≤ 57) := by
  intro n c hc
  unfold intDec at hc
  split at hc
  · rcases List.mem_cons.mp hc with rfl | hc2
    · left; rfl
    · right; exact natDigits_all_digit _ c hc2
  · right; exact natDigits_all_digit _ c hc

theorem intDec_check (n : Int) :
    ¬(intDec n = [] ∨ intDec n = [45] ∨
      (((intDec n).dropWhile (fun b => b == 45)).head? = some 48 ∧
        ((intDec n).dropWhile (fun b => b == 45)).length > 1)) := by
  by_cases hneg : n < 0
  · have hidec : intDec n = 45 :: natDigits (-n).toNat := by simp [intDec, hneg]
    obtain ⟨d, ds, hform⟩ : ∃ d ds, natDigits (-n).toNat = d :: ds := by
      cases h : natDigits (-n).toNat with
      | nil => exact absurd h (natDigits_ne_nil _)
      | cons a as => exact ⟨a, as, rfl⟩
    have hd48 : 48 ≤ d ∧ d ≤ 57 :=
      natDigits_all_digit _ d (by rw [hform]; exact List.mem_cons_self d ds)
    have hm : (-n).toNat ≠ 0 := by omega
    have hdne : d ≠ 48 := natDigits_head _ hm d ds hform
    rw [hidec, hform]
    have h45 : ((45 : Nat) == 45) = true := rfl
    have hdf : (d == 45) = false := by
      simp
      omega
    intro hbad
    rcases hbad with h | h | h
    · exact List.noConfusion h
    · injection h with _ h2
      exact (List.cons_ne_nil d ds) h2
    · rw [List.dropWhile_cons, h45, if_pos rfl, List.dropWhile_cons, hdf] at h
      simp at h
      exact hdne h.1
  · have hidec : intDec n = natDigits n.toNat := by simp [intDec, hneg]
    obtain ⟨d, ds, hform⟩ : ∃ d ds, natDigits n.toNat = d :: ds := by
      cases h : natDigits n.toNat with
      | nil => exact absurd h (natDigits_ne_nil _)
      | cons a as => exact ⟨a, as, rfl⟩
    have hd48 : 48 ≤ d ∧ d ≤ 57 :=
      natDigits_all_digit _ d (by rw [hform]; exact List.mem_cons_self d ds)
    have hdf : (d == 45) = false := by
      simp
      omega
    rw [hidec, hform]
    intro hbad
    rcases hbad with h | h | h
    · exact List.noConfusion h
    · injection h with h1 _
      omega
    · rw [List.dropWhile_cons, hdf] at h
      simp at h
      by_cases hz : n.toNat = 0
      · rw [hz] at hform
        have : natDigits 0 = [48] := rfl
        rw [this] at hform
        injection hform with h1 h2
        subst h2
        simp at h
      · exact natDigits_head _ hz d ds hform h.1

/-! ### Round trip, stage B: tokenizing an encoded value -/

theorem splitAtByte_append : ∀ (c : Nat) (pre post : List Nat), c ∉ pre →
    splitAtByte c (pre ++ c :: post) = some (pre, post) := by
  intro c pre
  induction pre with
  | nil =>
    intro post _
    simp [splitAtByte]
  | cons b bs ih =>
    intro post hmem
    have hbc : ¬(b = c) := fun h => hmem (h ▸ List.mem_cons_self b bs)
    have ihh := ih post (fun h => hmem (List.mem_cons_of_mem b h))
    simp [splitAtByte, hbc, ihh]

theorem splitAtByte_some : ∀ (c : Nat) (l pre post : List Nat),
    splitAtByte c l = some (pre, post) → l = pre ++ c :: post := by
  intro c l
  induction l with
  | nil => intro pre post h; exact absurd h (by simp [splitAtByte])
  | cons b bs ih =>
    intro pre post h
    by_cases hbc : b = c
    · subst hbc
      simp [splitAtByte] at h
      rw [h.1, ← h.2]
      rfl
    · simp only [splitAtByte, if_neg hbc] at h
      cases hrec : splitAtByte c bs with
      | none => rw [hrec] at h; exact absurd h (by simp)
      | some pq =>
        obtain ⟨p2, q2⟩ := pq
        rw [hrec] at h
        simp only [Option.some.injEq, Prod.mk.injEq] at h
        rw [← h.1, ← h.2]
        simp [ih p2 q2 hrec]

theorem tokF_irrel : ∀ (f : Nat) (data : List Nat), data.length < f →
    tokF f data = tokenize data := by
  intro f
  induction f using Nat.strong_induction_on with
  | _ f ih =>
    intro data hlen
    obtain ⟨f', rfl⟩ : ∃ f', f = f' + 1 := ⟨f - 1, by omega⟩
    cases data with
    | nil => rfl
    | cons c rest =>
      simp only [List.length_cons] at hlen
      have hstep : ∀ after : List Nat, after.length ≤ rest.length →
          tokF f' after = tokF (rest.length + 1) after := by
        intro after ha
        rw [ih f' (by omega) after (by omega),
          ih (rest.length + 1) (by omega) after (by omega)]
      show tokF (f' + 1) (c :: rest) = tokF ((c :: rest).length + 1) (c :: rest)
      simp only [List.length_cons]
      rw [tokF.eq_def]
      conv_rhs => rw [tokF.eq_def]
      simp only []
      by_cases hc : c = 105
      · simp only [if_pos hc]
        cases hsplit : splitAtByte 101 rest with
        | none => rfl
        | some pq =>
          obtain ⟨number, after⟩ := pq
          have hstruct := splitAtByte_some 101 rest number after hsplit
          have hbound : after.length ≤ rest.length := by
            rw [hstruct]
            simp
            omega
          by_cases hbad : number = [] ∨ number = [45] ∨
              ((number.dropWhile (fun b => b == 45)).head? = some 48 ∧
                (number.dropWhile (fun b => b == 45)).length > 1)
          · simp only [if_pos hbad]
          · simp only [if_neg hbad, hstep after hbound]
      · simp only [if_neg hc]
        by_cases hl : c = 108 ∨ c = 100 ∨ c = 101
        · simp only [if_pos hl, hstep rest le_rfl]
        · simp only [if_neg hl]
          by_cases hd : 48 ≤ c ∧ c ≤ 57
          · simp only [if_pos hd]
            cases hsplit : splitAtByte 58 (c :: rest) with
            | none => rfl
            | some pq =>
              obtain ⟨lb, after⟩ := pq
              have hstruct := splitAtByte_some 58 (c :: rest) lb after hsplit
              have hbound : after.length ≤ rest.length := by
                have : (c :: rest).length = lb.length + 1 + after.length := by
                  rw [hstruct]
                  simp
                  omega
                simp at this
                cases lb with
                | nil =>
                  exfalso
                  have h58 : c = 58 := by
                    have := hstruct
                    simp at this
                    exact this.1
                  omega
                | cons x xs => simp at this; omega
              by_cases hdig : bytesIsDigit lb = false
              · simp only [if_pos hdig]
              · simp only [if_neg hdig]
                by_cases hover : digitsVal lb > after.length
                · simp only [if_pos hover]
                · simp only [if_neg hover,
                    hstep (after.drop (digitsVal lb)) (by simp; omega)]
          · simp only [if_neg hd]

theorem toksF_irrel (f : Nat) : ∀ (g : Nat) (v : Value),
    vsize v ≤ f → vsize v ≤ g → toksF f v = toksF g v := by
  induction f using Nat.strong_induction_on with
  | _ f ih =>
    intro g v hf hg
    have h1 := vsize_pos v
    obtain ⟨f', rfl⟩ : ∃ f', f = f' + 1 := ⟨f - 1, by omega⟩
    obtain ⟨g', rfl⟩ : ∃ g', g = g' + 1 := ⟨g - 1, by omega⟩
    cases v with
    | int n => rfl
    | str b => rfl
    | text s => rfl
    | list l =>
      simp only [vsize] at hf hg
      simp only [toksF]
      have hm : l.map (toksF f') = l.map (toksF g') := by
        apply List.map_congr_left
        intro x hx
        have hs := vsize_le_vsizeList hx
        exact ih f' (by omega) g' x (by omega) (by omega)
      rw [hm]
    | dict l =>
      simp only [vsize] at hf hg
      simp only [toksF]
      have hm : (List.insertionSort pairLe l).map (fun p => toksF f' p.1 ++ toksF f' p.2)
          = (List.insertionSort pairLe l).map (fun p => toksF g' p.1 ++ toksF g' p.2) := by
        apply List.map_congr_left
        intro p hp
        have hs := vsize_le_vsizePairs (mem_insertionSort_pairLe hp)
        rw [ih f' (by omega) g' p.1 (by omega) (by omega),
          ih f' (by omega) g' p.2 (by omega) (by omega)]
      rw [hm]

theorem toks_int (n : Int) : toks (.int n) = [[105], intDec n, [101]] := rfl

theorem toks_str (b : List Nat) : toks (.str b) = [[115], b] := rfl

theorem toks_text (s : String) : toks (.text s) = [[115], utf8Bytes s] := rfl

theorem toks_list (l : List Value) :
    toks (.list l) = [108] :: ((l.map toks).flatten ++ [[101]]) := by
  show toksF (vsize (.list l) + 1) _ = _
  simp only [toksF]
  have hm : l.map (toksF (vsize (.list l))) = l.map toks := by
    apply List.map_congr_left
    intro x hx
    have hs := vsize_le_vsizeList hx
    simp only [vsize] at hs ⊢
    exact toksF_irrel _ _ x (by omega) (by omega)
  rw [hm]

theorem toks_dict (l : List (Value × Value)) :
    toks (.dict l) = [100] ::
      (((List.insertionSort pairLe l).map (fun p => toks p.1 ++ toks p.2)).flatten ++ [[101]]) := by
  show toksF (vsize (.dict l) + 1) _ = _
  simp only [toksF]
  have hm : (List.insertionSort pairLe l).map
        (fun p => toksF (vsize (.dict l)) p.1 ++ toksF (vsize (.dict l)) p.2)
      = (List.insertionSort pairLe l).map (fun p => toks p.1 ++ toks p.2) := by
    apply List.map_congr_left
    intro p hp
    have hs := vsize_le_vsizePairs (mem_insertionSort_pairLe hp)
    simp only [vsize] at hs ⊢
    rw [toksF_irrel (1 + vsizePairs l) (vsize p.1 + 1) p.1 (by omega) (by omega),
      toksF_irrel (1 + vsizePairs l) (vsize p.2 + 1) p.2 (by omega) (by omega)]
    rfl
  rw [hm]

theorem toks_cons : ∀ v : Value, ∃ t ts, toks v = t :: ts ∧
    (t = [105] ∨ t = [115] ∨ t = [108] ∨ t = [100]) := by
  intro v
  cases v with
  | int n => exact ⟨[105], _, toks_int n, Or.inl rfl⟩
  | str b => exact ⟨[115], _, toks_str b, Or.inr (Or.inl rfl)⟩
  | text s => exact ⟨[115], _, toks_text s, Or.inr (Or.inl rfl)⟩
  | list l => exact ⟨[108], _, toks_list l, Or.inr (Or.inr (Or.inl rfl))⟩
  | dict l => exact ⟨[100], _, toks_dict l, Or.inr (Or.inr (Or.inr rfl))⟩

theorem tokenize_nil : tokenize [] = ([], none) := rfl

theorem tokenize_marker (c : Nat) (rest : List Nat) (hc : c = 108 ∨ c = 100 ∨ c = 101) :
    tokenize (c :: rest) = ([c] :: (tokenize rest).1, (tokenize rest).2) := by
  have hni : ¬(c = 105) := by omega
  show tokF ((c :: rest).length + 1) (c :: rest) = _
  simp only [List.length_cons]
  rw [tokF.eq_def]
  simp only [if_neg hni, if_pos hc]
  rw [tokF_irrel (rest.length + 1) rest (by omega)]

theorem vsizePairs_eq_sum (l : List (Value × Value)) :
    vsizePairs l = (l.map (fun p => 1 + vsize p.1 + vsize p.2)).sum := by
  induction l with
  | nil => rfl
  | cons p ps ih => simp [vsizePairs, ih]

theorem vsizePairs_perm {l₁ l₂ : List (Value × Value)} (h : l₁.Perm l₂) :
    vsizePairs l₁ = vsizePairs l₂ := by
  rw [vsizePairs_eq_sum, vsizePairs_eq_sum]
  exact (h.map _).sum_eq

theorem tokenize_strlike (b rest : List Nat) :
    tokenize ((natDigits b.length ++ 58 :: b) ++ rest)
      = ([[115], b] ++ (tokenize rest).1, (tokenize rest).2) := by
  obtain ⟨d, ds, hform⟩ : ∃ d ds, natDigits b.length = d :: ds := by
    cases h : natDigits b.length with
    | nil => exact absurd h (natDigits_ne_nil _)
    | cons a as => exact ⟨a, as, rfl⟩
  have hd48 : ∀ c ∈ natDigits b.length, 48 ≤ c ∧ c ≤ 57 := natDigits_all_digit _
  have hdd : 48 ≤ d ∧ d ≤ 57 := hd48 d (by rw [hform]; exact List.mem_cons_self d ds)
  have hassoc : (natDigits b.length ++ 58 :: b) ++ rest
      = d :: (ds ++ 58 :: (b ++ rest)) := by
    rw [hform]
    simp
  rw [hassoc]
  show tokF ((d :: (ds ++ 58 :: (b ++ rest))).length + 1) _ = _
  simp only [List.length_cons]
  rw [tokF.eq_def]
  simp only []
  rw [if_neg (by omega : ¬(d = 105)),
    if_neg (by omega : ¬(d = 108 ∨ d = 100 ∨ d = 101)), if_pos hdd]
  have hsplit : splitAtByte 58 (d :: (ds ++ 58 :: (b ++ rest))) = some (d :: ds, b ++ rest) := by
    have : d :: (ds ++ 58 :: (b ++ rest)) = (d :: ds) ++ 58 :: (b ++ rest) := by simp
    rw [this]
    apply splitAtByte_append
    intro hmem
    rw [← hform] at hmem
    have := hd48 58 hmem
    omega
  rw [hsplit]
  simp only [← hform, bytesIsDigit_natDigits, digitsVal_natDigits]
  rw [if_neg (by simp), if_neg (by simp : ¬(b.length > (b ++ rest).length))]
  rw [List.take_left, List.drop_left]
  rw [tokF_irrel _ rest (by simp; omega)]
  rfl

theorem tokenize_encode_bounded : ∀ (n : Nat) (v : Value), vsize v ≤ n → ∀ (rest : List Nat),
    tokenize (encode v ++ rest) = (toks v ++ (tokenize rest).1, (tokenize rest).2) := by
  intro n
  induction n using Nat.strong_induction_on with
  | _ n ih =>
    intro v hv rest
    cases v with
    | int m =>
      rw [encode_int, toks_int]
      have hassoc : (105 :: (intDec m ++ [101])) ++ rest = 105 :: (intDec m ++ 101 :: rest) := by
        simp
      rw [hassoc]
      show tokF ((105 :: (intDec m ++ 101 :: rest)).length + 1) _ = _
      simp only [List.length_cons]
      rw [tokF.eq_def]
      simp only []
      rw [if_pos trivial]
      have hsplit : splitAtByte 101 (intDec m ++ 101 :: rest) = some (intDec m, rest) := by
        apply splitAtByte_append
        intro hmem
        rcases intDec_mem m 101 hmem with h | h <;> omega
      rw [hsplit]
      simp only []
      rw [if_neg (intDec_check m)]
      rw [tokF_irrel _ rest (by simp; omega)]
      rfl
    | str b =>
      rw [encode_str, toks_str]
      exact tokenize_strlike b rest
    | text s =>
      rw [encode_text, toks_text]
      exact tokenize_strlike (utf8Bytes s) rest
    | list cs =>
      rw [encode_list, toks_list]
      simp only [vsize] at hv
      have hassoc : (108 :: ((cs.map encode).flatten ++ [101])) ++ rest
          = 108 :: ((cs.map encode).flatten ++ 101 :: rest) := by simp
      rw [hassoc, tokenize_marker 108 _ (Or.inl rfl)]
      have hflat : ∀ ds : List Value, vsizeList ds ≤ vsizeList cs → ∀ tail : List Nat,
          tokenize ((ds.map encode).flatten ++ tail)
            = ((ds.map toks).flatten ++ (tokenize tail).1, (tokenize tail).2) := by
        intro ds
        induction ds with
        | nil => intro _ tail; simp
        | cons c cs' ihds =>
          intro hsz tail
          simp only [vsizeList] at hsz
          have h1 := vsize_pos c
          simp only [List.map_cons, List.flatten_cons, List.append_assoc]
          rw [ih (vsize c) (by omega) c le_rfl ((cs'.map encode).flatten ++ tail),
            ihds (by omega) tail]
      rw [hflat cs le_rfl (101 :: rest), tokenize_marker 101 rest (Or.inr (Or.inr rfl))]
      simp
    | dict l =>
      rw [encode_dict, toks_dict]
      simp only [vsize] at hv
      have hassoc : (100 :: (((List.insertionSort pairLe l).map
            (fun p => encode p.1 ++ encode p.2)).flatten ++ [101])) ++ rest
          = 100 :: (((List.insertionSort pairLe l).map
            (fun p => encode p.1 ++ encode p.2)).flatten ++ 101 :: rest) := by simp
      rw [hassoc, tokenize_marker 100 _ (Or.inr (Or.inl rfl))]
      have hpairs : ∀ qs : List (Value × Value), vsizePairs qs ≤ vsizePairs l →
          ∀ tail : List Nat,
          tokenize ((qs.map (fun p => encode p.1 ++ encode p.2)).flatten ++ tail)
            = ((qs.map (fun p => toks p.1 ++ toks p.2)).flatten ++ (tokenize tail).1,
              (tokenize tail).2) := by
        intro qs
        induction qs with
        | nil => intro _ tail; simp
        | cons q qs' ihqs =>
          intro hsz tail
          simp only [vsizePairs] at hsz
          have h1 := vsize_pos q.1
          have h2 := vsize_pos q.2
          simp only [List.map_cons, List.flatten_cons, List.append_assoc]
          rw [ih (vsize q.1) (by omega) q.1 le_rfl
              (encode q.2 ++ ((qs'.map (fun p => encode p.1 ++ encode p.2)).flatten ++ tail)),
            ih (vsize q.2) (by omega) q.2 le_rfl
              ((qs'.map (fun p => encode p.1 ++ encode p.2)).flatten ++ tail),
            ihqs (by omega) tail]
      have hsortsz : vsizePairs (List.insertionSort pairLe l) ≤ vsizePairs l :=
        le_of_eq (vsizePairs_perm (List.perm_insertionSort pairLe l))
      rw [hpairs _ hsortsz (101 :: rest), tokenize_marker 101 rest (Or.inr (Or.inr rfl))]
      simp

theorem tokenize_encode (v : Value) (rest : List Nat) :
    tokenize (encode v ++ rest) = (toks v ++ (tokenize rest).1, (tokenize rest).2) :=
  tokenize_encode_bounded (vsize v) v le_rfl rest

/-! ### Round trip, stage C: decoding the token stream of an encoded value -/

theorem canonF_irrel (f : Nat) : ∀ (g : Nat) (v : Value),
    vsize v ≤ f → vsize v ≤ g → canonF f v = canonF g v := by
  induction f using Nat.strong_induction_on with
  | _ f ih =>
    intro g v hf hg
    have h1 := vsize_pos v
    obtain ⟨f', rfl⟩ : ∃ f', f = f' + 1 := ⟨f - 1, by omega⟩
    obtain ⟨g', rfl⟩ : ∃ g', g = g' + 1 := ⟨g - 1, by omega⟩
    cases v with
    | int n => rfl
    | str b => rfl
    | text s => rfl
    | list l =>
      simp only [vsize] at hf hg
      simp only [canonF]
      have hm : l.map (canonF f') = l.map (canonF g') := by
        apply List.map_congr_left
        intro x hx
        have hs := vsize_le_vsizeList hx
        exact ih f' (by omega) g' x (by omega) (by omega)
      rw [hm]
    | dict l =>
      simp only [vsize] at hf hg
      simp only [canonF]
      have hm : (List.insertionSort pairLe l).map (fun p => (canonF f' p.1, canonF f' p.2))
          = (List.insertionSort pairLe l).map (fun p => (canonF g' p.1, canonF g' p.2)) := by
        apply List.map_congr_left
        intro p hp
        have hs := vsize_le_vsizePairs (mem_insertionSort_pairLe hp)
        rw [ih f' (by omega) g' p.1 (by omega) (by omega),
          ih f' (by omega) g' p.2 (by omega) (by omega)]
      rw [hm]

theorem canon_int (n : Int) : canon (.int n) = .int n := rfl

theorem canon_str (b : List Nat) : canon (.str b) = .str b := rfl

theorem canon_list (l : List Value) : canon (.list l) = .list (l.map canon) := by
  show canonF (vsize (.list l) + 1) _ = _
  simp only [canonF]
  have hm : l.map (canonF (vsize (.list l))) = l.map canon := by
    apply List.map_congr_left
    intro x hx
    have hs := vsize_le_vsizeList hx
    simp only [vsize] at hs ⊢
    exact canonF_irrel _ _ x (by omega) (by omega)
  rw [hm]

theorem canon_dict (l : List (Value × Value)) :
    canon (.dict l) =
      .dict ((List.insertionSort pairLe l).map (fun p => (canon p.1, canon p.2))) := by
  show canonF (vsize (.dict l) + 1) _ = _
  simp only [canonF]
  have hm : (List.insertionSort pairLe l).map
        (fun p => (canonF (vsize (.dict l)) p.1, canonF (vsize (.dict l)) p.2))
      = (List.insertionSort pairLe l).map (fun p => (canon p.1, canon p.2)) := by
    apply List.map_congr_left
    intro p hp
    have hs := vsize_le_vsizePairs (mem_insertionSort_pairLe hp)
    simp only [vsize] at hs ⊢
    rw [canonF_irrel (1 + vsizePairs l) (vsize p.1 + 1) p.1 (by omega) (by omega),
      canonF_irrel (1 + vsizePairs l) (vsize p.2 + 1) p.2 (by omega) (by omega)]
    rfl
  rw [hm]

theorem validF_irrel (f : Nat) : ∀ (g : Nat) (v : Value),
    vsize v ≤ f → vsize v ≤ g → validF f v = validF g v := by
  induction f using Nat.strong_induction_on with
  | _ f ih =>
    intro g v hf hg
    have h1 := vsize_pos v
    obtain ⟨f', rfl⟩ : ∃ f', f = f' + 1 := ⟨f - 1, by omega⟩
    obtain ⟨g', rfl⟩ : ∃ g', g = g' + 1 := ⟨g - 1, by omega⟩
    cases v with
    | int n => rfl
    | str b => rfl
    | text s => rfl
    | list l =>
      simp only [vsize] at hf hg
      simp only [validF]
      apply list_all_congr
      intro x hx
      have hs := vsize_le_vsizeList hx
      exact ih f' (by omega) g' x (by omega) (by omega)
    | dict l =>
      simp only [vsize] at hf hg
      simp only [validF]
      have hm : l.all (fun p => keyIsStr p.1 && validF f' p.2)
          = l.all (fun p => keyIsStr p.1 && validF g' p.2) := by
        apply list_all_congr
        intro p hp
        have hs := vsize_le_vsizePairs hp
        rw [ih f' (by omega) g' p.2 (by omega) (by omega)]
      rw [hm]

theorem validB_text (s : String) : validB (.text s) = false := rfl

theorem validB_str (b : List Nat) : validB (.str b) = true := rfl

theorem validB_list (l : List Value) : validB (.list l) = l.all validB := by
  show validF (vsize (.list l) + 1) _ = _
  simp only [validF]
  apply list_all_congr
  intro x hx
  have hs := vsize_le_vsizeList hx
  simp only [vsize] at hs ⊢
  exact validF_irrel _ _ x (by omega) (by omega)

theorem validB_dict (l : List (Value × Value)) :
    validB (.dict l) = (keysDistinct l && l.all (fun p => keyIsStr p.1 && validB p.2)) := by
  show validF (vsize (.dict l) + 1) _ = _
  simp only [validF]
  have hm : l.all (fun p => keyIsStr p.1 && validF (vsize (.dict l)) p.2)
      = l.all (fun p => keyIsStr p.1 && validB p.2) := by
    apply list_all_congr
    intro p hp
    have hs := vsize_le_vsizePairs hp
    simp only [vsize] at hs ⊢
    rw [validF_irrel (1 + vsizePairs l) (vsize p.2 + 1) p.2 (by omega) (by omega)]
    rfl
  rw [hm]

theorem vbeq_str (a b : List Nat) : vbeq (.str a) (.str b) = (a == b) := rfl

theorem dictSet_fresh : ∀ (m : List (Value × Value)) (k v : Value),
    (∀ q ∈ m, vbeq q.1 k = false) → dictSet m k v = m ++ [(k, v)] := by
  intro m k v hfresh
  induction m with
  | nil => rfl
  | cons p ps ih =>
    have hp : vbeq p.1 k = false := hfresh p (List.mem_cons_self p ps)
    simp only [dictSet, hp, Bool.false_eq_true, if_false, List.cons_append]
    rw [ih (fun q hq => hfresh q (List.mem_cons_of_mem p hq))]

theorem keysDistinct_pairwise : ∀ l : List (Value × Value), keysDistinct l = true →
    (∀ p ∈ l, keyIsStr p.1 = true) → List.Pairwise (fun p q => p.1 ≠ q.1) l := by
  intro l
  induction l with
  | nil => intro _ _; exact List.Pairwise.nil
  | cons p ps ih =>
    intro hkd hstr
    simp only [keysDistinct, Bool.and_eq_true, List.all_eq_true] at hkd
    refine List.Pairwise.cons ?_ (ih hkd.2 (fun q hq => hstr q (List.mem_cons_of_mem p hq)))
    intro q hq heq
    have hv := hkd.1 q hq
    obtain ⟨a, ha⟩ := keyIsStr_eq (hstr p (List.mem_cons_self p ps))
    obtain ⟨b, hb⟩ := keyIsStr_eq (hstr q (List.mem_cons_of_mem p hq))
    rw [ha, hb] at heq
    have hab : a = b := by
      injection heq
    rw [hb, ha, vbeq_str] at hv
    simp at hv
    rw [hab] at hv
    simp at hv

theorem dictLookup_mem : ∀ (l : List (Value × Value)),
    (∀ p ∈ l, keyIsStr p.1 = true) → List.Pairwise (fun p q => p.1 ≠ q.1) l →
    ∀ (k v : Value), (k, v) ∈ l → dictLookup k l = some v := by
  intro l
  induction l with
  | nil => intro _ _ k v h; cases h
  | cons p ps ih =>
    intro hstr hpw k v hmem
    obtain ⟨a, ha⟩ := keyIsStr_eq (hstr p (List.mem_cons_self p ps))
    rcases List.mem_cons.mp hmem with heq | hmem2
    · have h1 : p.1 = k := by rw [← heq]
      have h2 : p.2 = v := by rw [← heq]
      have hka : k = Value.str a := by rw [← h1, ha]
      simp only [dictLookup]
      rw [h1, hka, vbeq_str]
      simp [h2]
    · have hk : keyIsStr k = true := by
        have := hstr (k, v) (List.mem_cons_of_mem p hmem2)
        exact this
      obtain ⟨b, hb⟩ := keyIsStr_eq hk
      have hne : p.1 ≠ k := by
        have := (List.pairwise_cons.mp hpw).1 (k, v) hmem2
        exact this
      have hvb : vbeq p.1 k = false := by
        rw [ha, hb, vbeq_str]
        simp
        intro hab
        exact hne (by rw [ha, hb, hab])
      simp only [dictLookup, hvb, Bool.false_eq_true, if_false]
      exact ih (fun q hq => hstr q (List.mem_cons_of_mem p hq))
        (List.pairwise_cons.mp hpw).2 k v hmem2

theorem toks_head_ne_e : ∀ (v : Value) (t : Token) (ts : List Token),
    toks v = t :: ts → ¬(t = [101]) := by
  intro v t ts h
  obtain ⟨t', ts', ht', hmark⟩ := toks_cons v
  rw [h] at ht'
  injection ht' with h1 _
  subst h1
  rcases hmark with rfl | rfl | rfl | rfl <;> decide

theorem decode_item_toks : ∀ (n : Nat) (v : Value), vsize v ≤ n → validB v = true →
    ∀ (te : Option PyErr) (t : Token) (ts : List Token), toks v = t :: ts →
    ∀ (rest : List Token) (fuel : Nat), 2 * (ts.length + rest.length) + 2 ≤ fuel →
    decode_item fuel te t (ts ++ rest) = .ok (canon v, rest) := by
  intro n
  induction n using Nat.strong_induction_on with
  | _ n ih =>
    intro v hv hvalid te t ts htoks rest fuel hfuel
    obtain ⟨f, rfl⟩ : ∃ f, fuel = f + 1 := ⟨fuel - 1, by omega⟩
    cases v with
    | int m =>
      rw [toks_int] at htoks
      injection htoks with h1 h2
      subst h1
      subst h2
      rw [canon_int]
      simp [decode_item, nextTok, pyIntParse_intDec m]
    | str b =>
      rw [toks_str] at htoks
      injection htoks with h1 h2
      subst h1
      subst h2
      rw [canon_str]
      simp [decode_item, nextTok]
    | text s =>
      rw [validB_text] at hvalid
      exact absurd hvalid (by simp)
    | list cs =>
      rw [toks_list] at htoks
      injection htoks with h1 h2
      subst h1
      subst h2
      simp only [vsize] at hv
      rw [validB_list, List.all_eq_true] at hvalid
      have hseq : ∀ ds : List Value, vsizeList ds ≤ vsizeList cs →
          (∀ x ∈ ds, validB x = true) → ∀ (rest2 : List Token) (g : Nat),
          2 * (((ds.map toks).flatten ++ [[101]]).length + rest2.length) + 1 ≤ g →
          decodeSeq g te (((ds.map toks).flatten ++ [[101]]) ++ rest2)
            = .ok (ds.map canon, rest2) := by
        intro ds
        induction ds with
        | nil =>
          intro _ _ rest2 g hg
          obtain ⟨g', rfl⟩ : ∃ g', g = g' + 1 := ⟨g - 1, by omega⟩
          simp [decodeSeq, nextTok]
        | cons c cs' ihds =>
          intro hsz hvs rest2 g hg
          simp only [vsizeList] at hsz
          have hp1 := vsize_pos c
          obtain ⟨g', rfl⟩ : ∃ g', g = g' + 1 := ⟨g - 1, by omega⟩
          obtain ⟨tc, tcs, htc, hmark⟩ := toks_cons c
          have hne : ¬(tc = [101]) := toks_head_ne_e c tc tcs htc
          have hTok : (((c :: cs').map toks).flatten ++ [[101]]) ++ rest2
              = tc :: (tcs ++ (((cs'.map toks).flatten ++ [[101]]) ++ rest2)) := by
            simp [htc]
          rw [hTok]
          have hb1 : 2 * (tcs.length +
              ((((cs'.map toks).flatten ++ [[101]]) ++ rest2)).length) + 2 ≤ g' := by
            have e1 := hg
            simp [htc] at e1
            simp
            omega
          have hb2 : 2 * (((cs'.map toks).flatten ++ [[101]]).length + rest2.length) + 1
              ≤ g' := by
            have e1 := hg
            simp [htc] at e1
            simp
            omega
          simp only [decodeSeq, nextTok, if_neg hne,
            ih (vsize c) (by omega) c le_rfl (hvs c (List.mem_cons_self c cs')) te tc tcs htc
              ((((cs'.map toks).flatten ++ [[101]]) ++ rest2)) g' hb1,
            ihds (by omega) (fun x hx => hvs x (List.mem_cons_of_mem c hx)) rest2 g' hb2]
          simp
      have hbound : 2 * ((((cs.map toks).flatten ++ [[101]]).length) + rest.length) + 1
          ≤ f := by
        simp at hfuel ⊢
        omega
      simp only [decode_item]
      rw [if_neg (by decide), if_neg (by decide), if_pos trivial]
      rw [hseq cs le_rfl (fun x hx => hvalid x hx) rest f hbound, canon_list]
    | dict l =>
      rw [toks_dict] at htoks
      injection htoks with h1 h2
      subst h1
      subst h2
      simp only [vsize] at hv
      rw [validB_dict, Bool.and_eq_true, List.all_eq_true] at hvalid
      obtain ⟨hkd, hall⟩ := hvalid
      have hstr : ∀ p ∈ l, keyIsStr p.1 = true := by
        intro p hp
        have h := hall p hp
        rw [Bool.and_eq_true] at h
        exact h.1
      have hvalv : ∀ p ∈ l, validB p.2 = true := by
        intro p hp
        have h := hall p hp
        rw [Bool.and_eq_true] at h
        exact h.2
      have hpw : List.Pairwise (fun p q : Value × Value => p.1 ≠ q.1) l :=
        keysDistinct_pairwise l hkd hstr
      have hperm := List.perm_insertionSort pairLe l
      have hstrq : ∀ p ∈ List.insertionSort pairLe l, keyIsStr p.1 = true :=
        fun p hp => hstr p (hperm.mem_iff.mp hp)
      have hvalq : ∀ p ∈ List.insertionSort pairLe l, validB p.2 = true :=
        fun p hp => hvalv p (hperm.mem_iff.mp hp)
      have hpwq : List.Pairwise (fun p q : Value × Value => p.1 ≠ q.1)
          (List.insertionSort pairLe l) :=
        (hperm.pairwise_iff (fun {p q} h => h.symm)).mpr hpw
      have hszq : vsizePairs (List.insertionSort pairLe l) = vsizePairs l :=
        vsizePairs_perm hperm
      have hmap : ∀ qs : List (Value × Value), vsizePairs qs ≤ vsizePairs l →
          (∀ p ∈ qs, keyIsStr p.1 = true) → (∀ p ∈ qs, validB p.2 = true) →
          List.Pairwise (fun p q : Value × Value => p.1 ≠ q.1) qs →
          ∀ acc : List (Value × Value), (∀ a ∈ acc, ∀ p ∈ qs, vbeq a.1 p.1 = false) →
          ∀ (rest2 : List Token) (g : Nat),
          2 * (((qs.map (fun p : Value × Value => toks p.1 ++ toks p.2)).flatten ++ [[101]]).length
            + rest2.length) + 1 ≤ g →
          decodeMap g te acc (((qs.map (fun p : Value × Value => toks p.1 ++ toks p.2)).flatten ++ [[101]])
              ++ rest2)
            = .ok (acc ++ qs.map (fun p : Value × Value => (canon p.1, canon p.2)), rest2) := by
        intro qs
        induction qs with
        | nil =>
          intro _ _ _ _ acc _ rest2 g hg
          obtain ⟨g', rfl⟩ : ∃ g', g = g' + 1 := ⟨g - 1, by omega⟩
          simp [decodeMap, nextTok]
        | cons q qs' ihqs =>
          intro hsz hstr2 hval2 hpw2 acc hacc rest2 g hg
          simp only [vsizePairs] at hsz
          have hp1 := vsize_pos q.1
          have hp2 := vsize_pos q.2
          obtain ⟨g', rfl⟩ : ∃ g', g = g' + 1 := ⟨g - 1, by omega⟩
          obtain ⟨a, hqa⟩ := keyIsStr_eq (hstr2 q (List.mem_cons_self q qs'))
          obtain ⟨tk, tks, htk, hmk⟩ := toks_cons q.1
          obtain ⟨tv, tvs, htv, hmv⟩ := toks_cons q.2
          have hnek : ¬(tk = [101]) := toks_head_ne_e q.1 tk tks htk
          have hTok : (((q :: qs').map (fun p : Value × Value => toks p.1 ++ toks p.2)).flatten ++ [[101]])
                ++ rest2
              = tk :: (tks ++ (toks q.2 ++
                (((qs'.map (fun p : Value × Value => toks p.1 ++ toks p.2)).flatten ++ [[101]]) ++ rest2))) := by
            simp [htk]
          rw [hTok]
          have hb1 : 2 * (tks.length + (toks q.2 ++
              (((qs'.map (fun p : Value × Value => toks p.1 ++ toks p.2)).flatten ++ [[101]])
                ++ rest2)).length) + 2 ≤ g' := by
            have e1 := hg
            simp [htk, htv] at e1
            simp [htv]
            omega
          have hb2 : 2 * (tvs.length +
              ((((qs'.map (fun p : Value × Value => toks p.1 ++ toks p.2)).flatten ++ [[101]])
                ++ rest2)).length) + 2 ≤ g' := by
            have e1 := hg
            simp [htk, htv] at e1
            simp
            omega
          have hb3 : 2 * (((qs'.map (fun p : Value × Value => toks p.1 ++ toks p.2)).flatten
              ++ [[101]]).length + rest2.length) + 1 ≤ g' := by
            have e1 := hg
            simp [htk, htv] at e1
            simp
            omega
          have hkey := ih (vsize q.1) (by omega) q.1 le_rfl
            (by rw [hqa]; exact validB_str a) te tk tks htk
            (toks q.2 ++ (((qs'.map (fun p : Value × Value => toks p.1 ++ toks p.2)).flatten ++ [[101]])
              ++ rest2)) g' hb1
          have hTok2 : toks q.2 ++ (((qs'.map (fun p : Value × Value => toks p.1 ++ toks p.2)).flatten
                ++ [[101]]) ++ rest2)
              = tv :: (tvs ++ (((qs'.map (fun p : Value × Value => toks p.1 ++ toks p.2)).flatten ++ [[101]])
                ++ rest2)) := by
            simp [htv]
          have hval := ih (vsize q.2) (by omega) q.2 le_rfl
            (hval2 q (List.mem_cons_self q qs')) te tv tvs htv
            ((((qs'.map (fun p : Value × Value => toks p.1 ++ toks p.2)).flatten ++ [[101]]) ++ rest2))
            g' hb2
          have hcanon_key : canon q.1 = q.1 := by rw [hqa, canon_str]
          have hhash : pyHashable (canon q.1) = true := by rw [hcanon_key, hqa]; rfl
          have hfreshacc : ∀ x ∈ acc, vbeq x.1 (canon q.1) = false := by
            intro x hx
            rw [hcanon_key]
            exact hacc x hx q (List.mem_cons_self q qs')
          have hset : dictSet acc (canon q.1) (canon q.2)
              = acc ++ [(canon q.1, canon q.2)] :=
            dictSet_fresh acc (canon q.1) (canon q.2) hfreshacc
          have hfresh2 : ∀ x ∈ acc ++ [(canon q.1, canon q.2)], ∀ p ∈ qs',
              vbeq x.1 p.1 = false := by
            intro x hx p hp
            rcases List.mem_append.mp hx with hx1 | hx2
            · exact hacc x hx1 p (List.mem_cons_of_mem q hp)
            · simp at hx2
              obtain ⟨b, hpb⟩ := keyIsStr_eq (hstr2 p (List.mem_cons_of_mem q hp))
              have hneq : q.1 ≠ p.1 := (List.pairwise_cons.mp hpw2).1 p hp
              rw [hx2, hcanon_key, hqa, hpb, vbeq_str]
              simp
              intro hab
              exact hneq (by rw [hqa, hpb, hab])
          have hrec := ihqs (by omega)
            (fun p hp => hstr2 p (List.mem_cons_of_mem q hp))
            (fun p hp => hval2 p (List.mem_cons_of_mem q hp))
            (List.pairwise_cons.mp hpw2).2
            (acc ++ [(canon q.1, canon q.2)]) hfresh2 rest2 g' hb3
          simp only [htv] at hkey
          simp at hkey hval hrec
          simp only [decodeMap, nextTok, if_neg hnek]
          simp [htv, hkey, hval, hhash, hset, hrec]
      have hbound : 2 * ((((List.insertionSort pairLe l).map
            (fun p : Value × Value => toks p.1 ++ toks p.2)).flatten ++ [[101]]).length + rest.length) + 1
          ≤ f := by
        simp at hfuel ⊢
        omega
      simp only [decode_item]
      rw [if_neg (by decide), if_neg (by decide), if_neg (by decide), if_pos trivial]
      rw [hmap (List.insertionSort pairLe l) (le_of_eq hszq) hstrq hvalq hpwq [] 
          (by intro a ha; cases ha) rest f hbound]
      rw [canon_dict]
      simp

/-! ### Round trip, stage D: the canonical form is Python-equal to the original -/

theorem equivF_irrel (f : Nat) : ∀ (g : Nat) (a b : Value), vsize a ≤ f → vsize a ≤ g →
    equivF f a b = equivF g a b := by
  induction f using Nat.strong_induction_on with
  | _ f ih =>
    intro g a b hf hg
    have h1 := vsize_pos a
    obtain ⟨f', rfl⟩ : ∃ f', f = f' + 1 := ⟨f - 1, by omega⟩
    obtain ⟨g', rfl⟩ : ∃ g', g = g' + 1 := ⟨g - 1, by omega⟩
    cases a with
    | int n => cases b <;> rfl
    | str s => cases b <;> rfl
    | text s => cases b <;> rfl
    | list l =>
      cases b with
      | list m =>
        simp only [equivF, vsize] at hf hg ⊢
        congr 1
        apply list_all_congr
        intro p hp
        have hs := vsize_le_vsizeList (List.of_mem_zip hp).1
        exact ih f' (by omega) g' p.1 p.2 (by omega) (by omega)
      | int n => rfl
      | str s => rfl
      | text s => rfl
      | dict m => rfl
    | dict l =>
      cases b with
      | dict m =>
        simp only [equivF, vsize] at hf hg ⊢
        congr 1
        apply list_all_congr
        intro p hp
        have hs := vsize_le_vsizePairs hp
        cases hlk : dictLookup p.1 m with
        | none => simp [hlk]
        | some w => simp [hlk, ih f' (by omega) g' p.2 w (by omega) (by omega)]
      | int n => rfl
      | str s => rfl
      | text s => rfl
      | list m => rfl

theorem pyEquiv_int (a b : Int) : pyEquiv (.int a) (.int b) = (a == b) := rfl

theorem pyEquiv_str (a b : List Nat) : pyEquiv (.str a) (.str b) = (a == b) := rfl

theorem pyEquiv_list (a b : List Value) :
    pyEquiv (.list a) (.list b)
      = (a.length == b.length && (a.zip b).all (fun p => pyEquiv p.1 p.2)) := by
  show equivF (vsize (.list a) + 1) _ _ = _
  simp only [equivF]
  congr 1
  apply list_all_congr
  intro p hp
  have hs := vsize_le_vsizeList (List.of_mem_zip hp).1
  have hv := vsize_pos (Value.list a)
  simp only [vsize] at hs ⊢
  exact equivF_irrel _ _ p.1 p.2 (by omega) (by omega)

theorem pyEquiv_dict (a b : List (Value × Value)) :
    pyEquiv (.dict a) (.dict b)
      = (a.length == b.length && a.all (fun p =>
          match dictLookup p.1 b with
          | some w => pyEquiv p.2 w
          | none => false)) := by
  show equivF (vsize (.dict a) + 1) _ _ = _
  simp only [equivF]
  congr 1
  apply list_all_congr
  intro p hp
  have hs := vsize_le_vsizePairs hp
  simp only [vsize] at hs ⊢
  cases hlk : dictLookup p.1 b with
  | none => simp [hlk]
  | some w =>
    simp only [hlk]
    exact equivF_irrel _ _ p.2 w (by omega) (by omega)

theorem equiv_canon : ∀ (n : Nat) (v : Value), vsize v ≤ n → validB v = true →
    pyEquiv (canon v) v = true := by
  intro n
  induction n using Nat.strong_induction_on with
  | _ n ih =>
    intro v hv hvalid
    cases v with
    | int m => simp [canon_int, pyEquiv_int]
    | str b => simp [canon_str, pyEquiv_str]
    | text s =>
      rw [validB_text] at hvalid
      exact absurd hvalid (by simp)
    | list cs =>
      simp only [vsize] at hv
      rw [validB_list, List.all_eq_true] at hvalid
      rw [canon_list, pyEquiv_list]
      have hzip : ∀ ds : List Value, vsizeList ds ≤ vsizeList cs →
          (∀ x ∈ ds, validB x = true) →
          ((ds.map canon).zip ds).all (fun p => pyEquiv p.1 p.2) = true := by
        intro ds
        induction ds with
        | nil => intro _ _; rfl
        | cons c cs' ihds =>
          intro hsz hvs
          simp only [vsizeList] at hsz
          have h1 := vsize_pos c
          simp only [List.map_cons, List.zip_cons_cons, List.all_cons, Bool.and_eq_true]
          exact ⟨ih (vsize c) (by omega) c le_rfl (hvs c (List.mem_cons_self c cs')),
            ihds (by omega) (fun x hx => hvs x (List.mem_cons_of_mem c hx))⟩
      rw [hzip cs le_rfl hvalid]
      simp
    | dict l =>
      simp only [vsize] at hv
      rw [validB_dict, Bool.and_eq_true, List.all_eq_true] at hvalid
      obtain ⟨hkd, hall⟩ := hvalid
      have hstr : ∀ p ∈ l, keyIsStr p.1 = true := by
        intro p hp
        have h := hall p hp
        rw [Bool.and_eq_true] at h
        exact h.1
      have hvalv : ∀ p ∈ l, validB p.2 = true := by
        intro p hp
        have h := hall p hp
        rw [Bool.and_eq_true] at h
        exact h.2
      have hpw : List.Pairwise (fun p q : Value × Value => p.1 ≠ q.1) l :=
        keysDistinct_pairwise l hkd hstr
      have hperm := List.perm_insertionSort pairLe l
      rw [canon_dict, pyEquiv_dict]
      rw [Bool.and_eq_true]
      constructor
      · simp [hperm.length_eq]
      · rw [List.all_eq_true]
        intro p' hp'
        obtain ⟨p, hpmem, hpe⟩ := List.mem_map.mp hp'
        have hpl : p ∈ l := hperm.mem_iff.mp hpmem
        obtain ⟨a, hqa⟩ := keyIsStr_eq (hstr p hpl)
        have hcanon_key : canon p.1 = p.1 := by rw [hqa, canon_str]
        have hlook : dictLookup p.1 l = some p.2 :=
          dictLookup_mem l hstr hpw p.1 p.2 (by simpa using hpl)
        rw [← hpe]
        simp only [hcanon_key, hlook]
        have hs := vsize_le_vsizePairs hpl
        exact ih (vsize p.2) (by omega) p.2 le_rfl (hvalv p hpl)

/-! ### Claim C1: the round trip -/

/-- Claim C1: for every valid value tree (integers, byte strings, lists, and
dictionaries with unique byte-string keys), decoding the canonical encoding
succeeds and returns the canonical form of the tree, which is structurally
equal to it in Python's sense (`==`): dictionaries compare as key/value maps
(respecting key uniqueness), lists element-wise in order. -/
theorem c1_round_trip : ∀ v : Value, validB v = true →
    decode (encode v) = .ok (canon v) ∧ pyEquiv (canon v) v = true := by
  intro v hvalid
  refine ⟨?_, equiv_canon (vsize v) v le_rfl hvalid⟩
  have htok : tokenize (encode v) = (toks v, none) := by
    have h := tokenize_encode v []
    rw [List.append_nil] at h
    rw [h, tokenize_nil]
    simp
  obtain ⟨t, ts, hts, _⟩ := toks_cons v
  have hdi := decode_item_toks (vsize v) v le_rfl hvalid none t ts hts []
    (2 * ts.length + 2) (by simp)
  rw [List.append_nil] at hdi
  unfold decode
  rw [htok, hts]
  simp only [hdi]

/-- Claim C1 witness: a concrete valid tree with out-of-order dictionary
keys round-trips to its canonical form, Python-equal to the original. -/
theorem c1_round_trip_witness :
    validB (Value.dict [(Value.str (bstr "b"), Value.int 1),
      (Value.str (bstr "a"), Value.list [Value.int (-3), Value.str []]),
      (Value.str (bstr "aa"), Value.dict [])]) = true ∧
    decode (encode (Value.dict [(Value.str (bstr "b"), Value.int 1),
      (Value.str (bstr "a"), Value.list [Value.int (-3), Value.str []]),
      (Value.str (bstr "aa"), Value.dict [])]))
      = .ok (canon (Value.dict [(Value.str (bstr "b"), Value.int 1),
          (Value.str (bstr "a"), Value.list [Value.int (-3), Value.str []]),
          (Value.str (bstr "aa"), Value.dict [])])) ∧
    pyEquiv (canon (Value.dict [(Value.str (bstr "b"), Value.int 1),
      (Value.str (bstr "a"), Value.list [Value.int (-3), Value.str []]),
      (Value.str (bstr "aa"), Value.dict [])]))
      (Value.dict [(Value.str (bstr "b"), Value.int 1),
        (Value.str (bstr "a"), Value.list [Value.int (-3), Value.str []]),
        (Value.str (bstr "aa"), Value.dict [])]) = true :=
  ⟨by decide, c1_round_trip _ (by decide)⟩
